import Mathlib

/-!
Verification of the junkcoin-core proof-of-work / difficulty-retargeting code
(`src/pow.cpp`, `src/pow.h`) against its natural-language specification.

The C++ code is shallowly embedded: 256-bit `arith_uint256` values become
natural numbers reduced mod `2^256` where the C++ arithmetic wraps, `int64_t`
quantities become `ℤ` (with C++ truncated division/remainder rendered as
`Int.tdiv` / `Int.tmod`), and the `double` arithmetic of the transition-factor
computation is modelled explicitly (IEEE-754 binary64 round-to-nearest-even
where the source performs a `double` division, exact rational arithmetic with
truncation toward zero on the store back to `int64_t`).
-/

namespace JunkcoinPow

/-- Truncation toward zero of a rational number, the conversion C++ performs
when a `double` is assigned to an `int64_t`. -/
def ratTrunc (q : ℚ) : ℤ := if 0 ≤ q then ⌊q⌋ else ⌈q⌉

/-- The consensus parameter fields of `Consensus::Params` read by `pow.cpp`:
`powLimit` (a 256-bit magnitude), target spacing and timespan in seconds
(`int64_t`), the minimum-difficulty and no-retargeting flags, and the height at
which the minimum-difficulty exception becomes effective. -/
structure Params where
  powLimit : ℕ
  nPowTargetSpacing : ℤ
  nPowTargetTimespan : ℤ
  fPowAllowMinDifficultyBlocks : Bool
  fPowNoRetargeting : Bool
  nHeightEffective : ℕ

/-- Modelled from the spec: the derived adjustment-interval length
`DifficultyAdjustmentInterval() = timespan / spacing` of `Consensus::Params`
(declared in `consensus/params.h`, which is not under `src/`); C++ `int64_t`
division truncates toward zero. -/
def DifficultyAdjustmentInterval (p : Params) : ℤ :=
  p.nPowTargetTimespan.tdiv p.nPowTargetSpacing

/-- Modelled from the spec: `arith_uint256::SetCompact` (not under `src/`),
the standard nBits convention — 8 exponent bits, 1 sign bit, 23 mantissa bits.
This is the decoded 256-bit magnitude (shifts wrap mod `2^256`). -/
def setCompactValue (nc : ℕ) : ℕ :=
  let size := nc >>> 24
  let w := nc &&& 0x007fffff
  if size ≤ 3 then w >>> (8 * (3 - size))
  else (w <<< (8 * (size - 3))) % 2 ^ 256

/-- Modelled from the spec: the negative flag produced by
`arith_uint256::SetCompact` — mantissa nonzero and sign bit set. -/
def setCompactNegative (nc : ℕ) : Bool :=
  (nc &&& 0x007fffff) != 0 && (nc &&& 0x00800000) != 0

/-- Modelled from the spec: the overflow flag produced by
`arith_uint256::SetCompact` — mantissa nonzero and magnitude not representable
in 256 bits. -/
def setCompactOverflow (nc : ℕ) : Bool :=
  let size := nc >>> 24
  let w := nc &&& 0x007fffff
  w != 0 && (size > 34 || (w > 0xff && size > 33) || (w > 0xffff && size > 32))

/-- Fuel-bounded binary length: `bitsRec fuel v` is the number of significant
bits of `v` whenever `v < 2 ^ fuel`. -/
def bitsRec : ℕ → ℕ → ℕ
  | 0, _ => 0
  | fuel + 1, v => if v = 0 then 0 else bitsRec fuel (v / 2) + 1

/-- The number of significant bits of `v` (`base_uint::bits()`), for the
values below `2 ^ 320` this development manipulates (`arith_uint256` values
are below `2 ^ 256`). -/
def natBits (v : ℕ) : ℕ := bitsRec 320 v

/-- Modelled from the spec: `arith_uint256::GetCompact` (not under `src/`) for
a non-negative magnitude (every call in `pow.cpp` uses the default
`fNegative = false`).  Takes the top three bytes as mantissa, renormalizing
when the mantissa's top bit (the sign bit of the compact form) is set. -/
def getCompact (v : ℕ) : ℕ :=
  let size := (natBits v + 7) / 8
  let c := if size ≤ 3 then v <<< (8 * (3 - size)) else v >>> (8 * (size - 3))
  let c2 := if c &&& 0x00800000 != 0 then c >>> 8 else c
  let size2 := if c &&& 0x00800000 != 0 then size + 1 else size
  c2 ||| (size2 <<< 24)

/-- `x * t` as `arith_uint256::operator*=` is invoked by `pow.cpp` on an
`int64_t` timespan: C++ overload resolution selects `operator*=(uint32_t)`, so
the timespan is first converted to `uint32_t` (reduction mod `2^32`), and the
256-bit product wraps mod `2^256`. -/
def mulTS (a : ℕ) (t : ℤ) : ℕ := (a * (t % (2 ^ 32 : ℤ)).toNat) % 2 ^ 256

/-- `x / t` as `arith_uint256::operator/=` is invoked by `pow.cpp` on an
`int64_t` divisor: the divisor is converted through `uint64_t` (reduction mod
`2^64`) and the division is unsigned floor division.  (C++ throws on a zero
divisor; every claim below constrains the divisor to be positive.) -/
def divTS (a : ℕ) (t : ℤ) : ℕ := a / (t % (2 ^ 64 : ℤ)).toNat

/-- Height at which new difficulty adjustment rules activate
(`NEW_RULES_ACTIVATION_HEIGHT` in `pow.cpp`). -/
def newRulesActivationHeight : ℤ := 175000

/-- Gradual transition window in blocks (`TRANSITION_WINDOW` in `pow.cpp`). -/
def transitionWindow : ℤ := 2000

/-- The binade shift used by the binary64 rounding of `k / 2000`: the least
`s` with `k * 2^s ≥ 2000` (so `k / 2000 ∈ [2^(-s), 2^(1-s))`); written as an
explicit chain over `s = 0, …, 11`, enough for `1 ≤ k ≤ 1999`. -/
def rnS (k : ℕ) : ℕ :=
  if 2000 ≤ k then 0
  else if 2000 ≤ k * 2 then 1
  else if 2000 ≤ k * 4 then 2
  else if 2000 ≤ k * 8 then 3
  else if 2000 ≤ k * 16 then 4
  else if 2000 ≤ k * 32 then 5
  else if 2000 ≤ k * 64 then 6
  else if 2000 ≤ k * 128 then 7
  else if 2000 ≤ k * 256 then 8
  else if 2000 ≤ k * 512 then 9
  else if 2000 ≤ k * 1024 then 10
  else 11

/-- The 53-bit significand of the binary64 value nearest to `k / 2000`
(round half to even): the integer nearest `k * 2^(52 + rnS k) / 2000`. -/
def rnNum (k : ℕ) : ℕ :=
  let n := k * 2 ^ (52 + rnS k)
  let q := n / 2000
  let r := n % 2000
  if 1000 < r then q + 1 else if r < 1000 then q else q + q % 2

/-- The IEEE-754 binary64 round-to-nearest-even value of `k / 2000`, as an
exact rational, for `0 ≤ k ≤ 1999`. -/
def rn53 (k : ℕ) : ℚ := if k = 0 then 0 else (rnNum k : ℚ) / 2 ^ (52 + rnS k)

/-- `GetTransitionFactor` from `pow.cpp`: `0.0` below the activation height,
`1.0` at or above activation + window, and otherwise the `double` quotient
`(height - activation) / window`, modelled as the exact value of the
correctly-rounded binary64 division. -/
def GetTransitionFactor (height : ℤ) : ℚ :=
  if height < newRulesActivationHeight then 0
  else if height ≥ newRulesActivationHeight + transitionWindow then 1
  else rn53 (height - newRulesActivationHeight).toNat

/-- `GetDifficultyLimits` from `pow.cpp`.  The interpolation
`nMin + (targetMin - nMin) * transitionFactor` is performed by the source in
`double` arithmetic and stored to `int64_t` (truncation toward zero); it is
modelled here in exact rational arithmetic with the same truncation.  All
`int64_t` divisions are C++ truncated division. -/
def GetDifficultyLimits (height : ℤ) (transitionFactor : ℚ) (p : Params) : ℤ × ℤ :=
  let nMinTimespan := p.nPowTargetTimespan.tdiv 4
  let nMaxTimespan := p.nPowTargetTimespan * 4
  if height < newRulesActivationHeight then (nMinTimespan, nMaxTimespan)
  else
    let targetMin :=
      if height > newRulesActivationHeight + 10000 then p.nPowTargetTimespan.tdiv 4
      else if height > newRulesActivationHeight + 5000 then p.nPowTargetTimespan.tdiv 8
      else p.nPowTargetTimespan.tdiv 16
    let targetMax := p.nPowTargetTimespan * 4
    (ratTrunc ((nMinTimespan : ℚ) + ((targetMin : ℚ) - (nMinTimespan : ℚ)) * transitionFactor),
     ratTrunc ((nMaxTimespan : ℚ) + ((targetMax : ℚ) - (nMaxTimespan : ℚ)) * transitionFactor))

/-- `PermittedDifficultyTransition` from `pow.cpp`: always permitted on
minimum-difficulty chains; on a non-adjustment height the compact bits must be
unchanged; on an adjustment height the observed new target must lie between
the round-tripped smallest and largest achievable next targets. -/
def PermittedDifficultyTransition (p : Params) (height : ℤ) (old_nbits new_nbits : ℕ) : Bool :=
  if p.fPowAllowMinDifficultyBlocks then true
  else if height.tmod (DifficultyAdjustmentInterval p) = 0 then
    let f := GetTransitionFactor height
    let lim := GetDifficultyLimits height f p
    let pow_limit := p.powLimit
    let observed_new_target := setCompactValue new_nbits
    let largest0 := divTS (mulTS (setCompactValue old_nbits) lim.2) p.nPowTargetTimespan
    let largest := if largest0 > pow_limit then pow_limit else largest0
    let maximum_new_target := setCompactValue (getCompact largest)
    if maximum_new_target < observed_new_target then false
    else
      let smallest0 := divTS (mulTS (setCompactValue old_nbits) lim.1) p.nPowTargetTimespan
      let smallest := if smallest0 > pow_limit then pow_limit else smallest0
      let minimum_new_target := setCompactValue (getCompact smallest)
      if minimum_new_target > observed_new_target then false
      else true
  else if old_nbits ≠ new_nbits then false
  else true

/-- A block header as read by `pow.cpp` (only `GetBlockTime` is used). -/
structure BlockHeader where
  nTime : ℤ

/-- A chain-index entry as read by `pow.cpp`: height, timestamp, compact
difficulty bits, median-time-past, and the predecessor link.  Median-time-past
is modelled from the spec as externally supplied chain data (its computation
lives in `chain.h`, not under `src/`). -/
inductive BlockIndex where
  | mk (nHeight : ℤ) (nTime : ℤ) (nBits : ℕ) (medianTimePast : ℤ)
      (pprev : Option BlockIndex)

def BlockIndex.nHeight : BlockIndex → ℤ
  | .mk h _ _ _ _ => h

def BlockIndex.nTime : BlockIndex → ℤ
  | .mk _ t _ _ _ => t

def BlockIndex.nBits : BlockIndex → ℕ
  | .mk _ _ b _ _ => b

def BlockIndex.medianTimePast : BlockIndex → ℤ
  | .mk _ _ _ m _ => m

def BlockIndex.pprev : BlockIndex → Option BlockIndex
  | .mk _ _ _ _ pv => pv

/-- `ValidateBlockTime` from `pow.cpp`; `GetAdjustedTime()` is an external
time source, supplied here as the argument `adjustedTime`. -/
def ValidateBlockTime (adjustedTime : ℤ) (pindexLast : BlockIndex)
    (pblock : Option BlockHeader) : Bool :=
  match pblock with
  | none => true
  | some b =>
    if b.nTime ≤ pindexLast.medianTimePast then false
    else if b.nTime > adjustedTime + 2 * 60 * 60 then false
    else true

/-- `AllowMinDifficultyForBlock` from `pow.cpp` (for a non-null header; the
height comparison against `nHeightEffective` is performed after casting the
height to `unsigned`, modelled via `Int.toNat` on the non-negative heights the
chain supplies). -/
def AllowMinDifficultyForBlock (pindexLast : BlockIndex) (pblock : BlockHeader)
    (p : Params) : Bool :=
  if ¬ p.fPowAllowMinDifficultyBlocks then false
  else if pindexLast.nHeight.toNat < p.nHeightEffective then false
  else pblock.nTime > pindexLast.nTime + p.nPowTargetSpacing * 6

/-- The backward walk in the minimum-difficulty branch of
`GetNextWorkRequired`: follow `pprev` while the current block is a
non-boundary block carrying the proof-of-work-limit compact bits. -/
def minDiffWalk (p : Params) (plimit : ℕ) : BlockIndex → BlockIndex
  | .mk h t bits mtp none => .mk h t bits mtp none
  | .mk h t bits mtp (some prev) =>
    if h.tmod (DifficultyAdjustmentInterval p) ≠ 0 ∧ bits = plimit then
      minDiffWalk p plimit prev
    else .mk h t bits mtp (some prev)

/-- Number of predecessor links the walk `minDiffWalk` follows. -/
def minDiffWalkSteps (p : Params) (plimit : ℕ) : BlockIndex → ℕ
  | .mk _ _ _ _ none => 0
  | .mk h _ bits _ (some prev) =>
    if h.tmod (DifficultyAdjustmentInterval p) ≠ 0 ∧ bits = plimit then
      minDiffWalkSteps p plimit prev + 1
    else 0

/-- Modelled from the spec: `CBlockIndex::GetAncestor` (chain traversal, not
under `src/`) — fetch the ancestor at a given height by walking predecessor
links. -/
def ancestorAt : BlockIndex → ℤ → Option BlockIndex
  | .mk h t bits mtp none, target =>
    if h = target then some (.mk h t bits mtp none) else none
  | .mk h t bits mtp (some prev), target =>
    if h = target then some (.mk h t bits mtp (some prev))
    else ancestorAt prev target

/-- `CalculateNextWorkRequired` from `pow.cpp`. -/
def CalculateNextWorkRequired (pindexLast : BlockIndex) (nFirstBlockTime : ℤ)
    (p : Params) : ℕ :=
  if p.fPowNoRetargeting then pindexLast.nBits
  else
    let transitionFactor := GetTransitionFactor (pindexLast.nHeight + 1)
    let lim := GetDifficultyLimits (pindexLast.nHeight + 1) transitionFactor p
    let nActualTimespan := pindexLast.nTime - nFirstBlockTime
    let nModulatedTimespan :=
      if nActualTimespan < lim.1 then lim.1
      else if nActualTimespan > lim.2 then lim.2
      else nActualTimespan
    let bnNew0 := divTS (mulTS (setCompactValue pindexLast.nBits) nModulatedTimespan)
      p.nPowTargetTimespan
    let bnNew := if bnNew0 > p.powLimit then p.powLimit else bnNew0
    getCompact bnNew

/-- The header timestamp read where `pow.cpp` dereferences `pblock`
unconditionally (a null header there would be undefined behaviour in C++; the
claims below always supply a header on those paths). -/
def headerTime : Option BlockHeader → ℤ
  | none => 0
  | some b => b.nTime

/-- `GetNextWorkRequired` from `pow.cpp`.  `digishield` stands for
`AllowDigishieldMinDifficultyForBlock`, modelled from the spec as an external
era-specific policy hook (its definition lives in `junkcoin.h`, not under
`src/`); `adjustedTime` is the external network-adjusted time source.  A
failed `assert` in the source (negative first height or missing ancestor) is
modelled as the result `0`. -/
def GetNextWorkRequired
    (digishield : BlockIndex → Option BlockHeader → Params → Bool)
    (adjustedTime : ℤ) (pindexLast : Option BlockIndex)
    (pblock : Option BlockHeader) (p : Params) : ℕ :=
  let nProofOfWorkLimit := getCompact p.powLimit
  match pindexLast with
  | none => nProofOfWorkLimit
  | some last =>
    if ¬ ValidateBlockTime adjustedTime last pblock then nProofOfWorkLimit
    else if digishield last pblock p then nProofOfWorkLimit
    else
      let fNewDifficultyProtocol := last.nHeight + 1 ≥ 69360
      let nTargetTimespanCurrent :=
        if fNewDifficultyProtocol then p.nPowTargetTimespan
        else p.nPowTargetTimespan * 12
      let difficultyAdjustmentInterval :=
        nTargetTimespanCurrent.tdiv p.nPowTargetSpacing
      if (last.nHeight + 1).tmod difficultyAdjustmentInterval ≠ 0 then
        if p.fPowAllowMinDifficultyBlocks then
          if headerTime pblock > last.nTime + p.nPowTargetSpacing * 6 then
            nProofOfWorkLimit
          else (minDiffWalk p nProofOfWorkLimit last).nBits
        else last.nBits
      else
        let blockstogoback :=
          if last.nHeight + 1 ≠ difficultyAdjustmentInterval then
            difficultyAdjustmentInterval
          else difficultyAdjustmentInterval - 1
        let nHeightFirst := last.nHeight - blockstogoback
        match ancestorAt last nHeightFirst with
        | none => 0
        | some first =>
          let nBits := CalculateNextWorkRequired last first.nTime p
          if ¬ PermittedDifficultyTransition p (last.nHeight + 1) last.nBits nBits then
            last.nBits
          else nBits

/-- `CheckProofOfWork` from `pow.cpp`: decode the target, reject negative,
zero, overflowed, or above-limit targets, then compare the hash magnitude
against the target. -/
def CheckProofOfWork (hash : ℕ) (nBits : ℕ) (p : Params) : Bool :=
  let fNegative := setCompactNegative nBits
  let fOverflow := setCompactOverflow nBits
  let bnTarget := setCompactValue nBits
  if fNegative || bnTarget == 0 || fOverflow || decide (bnTarget > p.powLimit) then false
  else if hash > bnTarget then false
  else true

/-- The era-dependent adjustment interval the orchestrator
`GetNextWorkRequired` computes for the block at `height`: the plain interval
from height 69360 on, twelve times the timespan before. -/
def eraInterval (p : Params) (height : ℤ) : ℤ :=
  (if height ≥ 69360 then p.nPowTargetTimespan else p.nPowTargetTimespan * 12).tdiv
    p.nPowTargetSpacing

/-! ### The compact round-trip `SetCompact ∘ GetCompact` as a grid floor

`GetCompact` keeps (at most) the top three bytes of a magnitude at a byte
boundary; decoding back yields the largest value of the form
`mantissa * 2^(8k)` with `mantissa < 2^23` that does not exceed the input.
This section proves that characterization and its consequences: the
round-trip is contracting, monotone, and fixes every decoded value. -/

lemma bitsRec_zero (fuel : ℕ) : bitsRec fuel 0 = 0 := by
  cases fuel <;> simp [bitsRec]

lemma bitsRec_spec (fuel : ℕ) :
    ∀ v, v < 2 ^ fuel → v < 2 ^ bitsRec fuel v ∧ (0 < v → 2 ^ (bitsRec fuel v - 1) ≤ v) := by
  induction fuel with
  | zero =>
    intro v hv
    interval_cases v
    exact ⟨by norm_num, by omega⟩
  | succ fuel IH =>
    intro v hv
    by_cases hz : v = 0
    · subst hz
      rw [bitsRec_zero]
      exact ⟨by norm_num, by omega⟩
    · have hrec : bitsRec (fuel + 1) v = bitsRec fuel (v / 2) + 1 := by
        simp [bitsRec, hz]
      have hhalf : v / 2 < 2 ^ fuel := by
        rw [Nat.div_lt_iff_lt_mul (by norm_num)]
        calc v < 2 ^ (fuel + 1) := hv
          _ = 2 ^ fuel * 2 := by rw [pow_succ]
      obtain ⟨ha, hb⟩ := IH (v / 2) hhalf
      rw [hrec]
      set b := bitsRec fuel (v / 2) with hbdef
      constructor
      · have h2 : (2:ℕ) ^ (b + 1) = 2 ^ b * 2 := by rw [pow_succ]
        omega
      · intro _
        by_cases h2z : v / 2 = 0
        · have hv1 : v = 1 := by omega
          have hb0 : b = 0 := by rw [hbdef, h2z, bitsRec_zero]
          rw [hb0, hv1]
          norm_num
        · have hlow : 2 ^ (b - 1) ≤ v / 2 := hb (by omega)
          have hb1 : 1 ≤ b := by
            by_contra hc
            have : b = 0 := by omega
            rw [this] at ha
            omega
          have h2 : (2:ℕ) ^ b = 2 ^ (b - 1) * 2 := by
            rw [← pow_succ]
            congr 1
            omega
          have : 2 ^ b ≤ v := by omega
          simpa using this

lemma natBits_lt (v : ℕ) (hv : v < 2 ^ 320) : v < 2 ^ natBits v :=
  (bitsRec_spec 320 v hv).1

lemma natBits_low (v : ℕ) (hv : v < 2 ^ 320) (hp : 0 < v) :
    2 ^ (natBits v - 1) ≤ v :=
  (bitsRec_spec 320 v hv).2 hp

/-- Number of whole bytes `GetCompact` shifts out of `v`. -/
def bExp (v : ℕ) : ℕ := (natBits v - 16) / 8

/-- The value the compact round-trip reproduces: `v` floored to the grid of
23-bit mantissas at byte shift `bExp v`. -/
def gridFloor (v : ℕ) : ℕ := 2 ^ (8 * bExp v) * (v / 2 ^ (8 * bExp v))

lemma gridFloor_le (v : ℕ) : gridFloor v ≤ v := by
  unfold gridFloor
  rw [mul_comm]
  exact Nat.div_mul_le_self v _

lemma size_le_bExp (v : ℕ) : natBits v ≤ 8 * bExp v + 23 := by
  unfold bExp
  omega

lemma gridFloor_mant_lt (v : ℕ) (hv : v < 2 ^ 320) : v / 2 ^ (8 * bExp v) < 2 ^ 23 := by
  rw [Nat.div_lt_iff_lt_mul (Nat.pos_pow_of_pos _ (by norm_num)), ← pow_add]
  calc v < 2 ^ natBits v := natBits_lt v hv
    _ ≤ 2 ^ (23 + 8 * bExp v) := Nat.pow_le_pow_right (by norm_num)
        (le_trans (size_le_bExp v) (by omega))

lemma bExp_min (v : ℕ) (hv : v < 2 ^ 320) (h : 1 ≤ bExp v) : 2 ^ (8 * bExp v + 15) ≤ v := by
  have hsb : 8 * bExp v + 16 ≤ natBits v := by unfold bExp at *; omega
  have hp : 0 < v := by
    rcases Nat.eq_zero_or_pos v with hz | hp
    · subst hz
      rw [show natBits 0 = 0 from bitsRec_zero 320] at hsb
      omega
    · exact hp
  calc (2:ℕ) ^ (8 * bExp v + 15) ≤ 2 ^ (natBits v - 1) :=
      Nat.pow_le_pow_right (by norm_num) (by omega)
    _ ≤ v := natBits_low v hv hp

lemma grid_le_gridFloor {m k v : ℕ} (hv : v < 2 ^ 320) (hm : m < 2 ^ 23)
    (hle : m * 2 ^ (8 * k) ≤ v) : m * 2 ^ (8 * k) ≤ gridFloor v := by
  rcases le_or_lt (bExp v) k with hbk | hbk
  · have hsplit : 8 * k = (8 * k - 8 * bExp v) + 8 * bExp v := by omega
    have h1 : m * 2 ^ (8 * k) = (m * 2 ^ (8 * k - 8 * bExp v)) * 2 ^ (8 * bExp v) := by
      rw [mul_assoc, ← pow_add, ← hsplit]
    have h2 : m * 2 ^ (8 * k - 8 * bExp v) ≤ v / 2 ^ (8 * bExp v) := by
      rw [Nat.le_div_iff_mul_le (Nat.pos_pow_of_pos _ (by norm_num))]
      rw [← h1]
      exact hle
    calc m * 2 ^ (8 * k) = (m * 2 ^ (8 * k - 8 * bExp v)) * 2 ^ (8 * bExp v) := h1
      _ ≤ (v / 2 ^ (8 * bExp v)) * 2 ^ (8 * bExp v) := Nat.mul_le_mul_right _ h2
      _ = gridFloor v := by unfold gridFloor; ring
  · have hb1 : 1 ≤ bExp v := by omega
    have h1 : m * 2 ^ (8 * k) < 2 ^ (23 + 8 * k) := by
      rw [pow_add]
      exact Nat.mul_lt_mul_of_lt_of_le hm le_rfl (Nat.pos_pow_of_pos _ (by norm_num))
    have h2 : (2:ℕ) ^ (23 + 8 * k) ≤ 2 ^ (8 * bExp v + 15) :=
      Nat.pow_le_pow_right (by norm_num) (by omega)
    have h3 : 2 ^ (8 * bExp v + 15) ≤ gridFloor v := by
      have h4 : (2:ℕ) ^ 15 ≤ v / 2 ^ (8 * bExp v) := by
        rw [Nat.le_div_iff_mul_le (Nat.pos_pow_of_pos _ (by norm_num))]
        calc (2:ℕ) ^ 15 * 2 ^ (8 * bExp v) = 2 ^ (8 * bExp v + 15) := by
              rw [← pow_add]; ring_nf
          _ ≤ v := bExp_min v hv hb1
      calc (2:ℕ) ^ (8 * bExp v + 15) = 2 ^ (8 * bExp v) * 2 ^ 15 := by rw [← pow_add]
        _ ≤ 2 ^ (8 * bExp v) * (v / 2 ^ (8 * bExp v)) := Nat.mul_le_mul_left _ h4
        _ = gridFloor v := rfl
    omega

lemma gridFloor_mono {u v : ℕ} (hu : u < 2 ^ 320) (hv : v < 2 ^ 320) (h : u ≤ v) :
    gridFloor u ≤ gridFloor v := by
  have h1 : gridFloor u = (u / 2 ^ (8 * bExp u)) * 2 ^ (8 * bExp u) := by
    unfold gridFloor; ring
  rw [h1]
  exact grid_le_gridFloor hv (gridFloor_mant_lt u hu)
    (le_trans (by rw [← h1]; exact gridFloor_le u) h)

lemma gridFloor_of_grid {m k : ℕ} (hv : m * 2 ^ (8 * k) < 2 ^ 320) (hm : m < 2 ^ 23) :
    gridFloor (m * 2 ^ (8 * k)) = m * 2 ^ (8 * k) :=
  le_antisymm (gridFloor_le _) (grid_le_gridFloor hv hm le_rfl)

/-- Bit 23 of a value below `2^24` is set exactly when the value is at least
`2^23` (the sign-bit test `nCompact & 0x00800000` of the C++ source). -/
lemma msb_test (c : ℕ) (h : c < 2 ^ 24) :
    (c &&& 0x00800000 != 0) = decide (2 ^ 23 ≤ c) := by
  have hlit : (0x00800000 : ℕ) = 2 ^ 23 := by norm_num
  rw [hlit]
  have h1 : c &&& 2 ^ 23 = (c.testBit 23).toNat * 2 ^ 23 := Nat.and_two_pow c 23
  have h2 : c.testBit 23 = decide (2 ^ 23 ≤ c) := by
    rw [Nat.testBit_to_div_mod]
    rcases Nat.lt_or_ge c (2 ^ 23) with hlt | hge
    · rw [Nat.div_eq_of_lt hlt, decide_eq_false (Nat.not_le_of_lt hlt)]
      decide
    · have hq : c / 2 ^ 23 = 1 := by
        have hub : c / 2 ^ 23 < 2 := by
          rw [Nat.div_lt_iff_lt_mul (by positivity)]
          calc c < 2 ^ 24 := h
            _ = 2 ^ 23 * 2 := by ring
        have hlbq : 1 ≤ c / 2 ^ 23 := (Nat.one_le_div_iff (by positivity)).mpr hge
        omega
      rw [hq, decide_eq_true hge]
      decide
  rw [h1, h2]
  rcases le_or_lt (2 ^ 23) c with hge | hlt
  · rw [decide_eq_true hge]
    decide
  · rw [decide_eq_false (Nat.not_le_of_lt hlt)]
    decide

lemma pack_decompose (c s : ℕ) (hc : c < 2 ^ 24) :
    c ||| s <<< 24 = 2 ^ 24 * s + c := by
  rw [Nat.shiftLeft_eq, Nat.or_comm, mul_comm s (2 ^ 24)]
  exact (Nat.mul_add_lt_is_or hc s).symm

lemma pack_size (c s : ℕ) (hc : c < 2 ^ 24) : (2 ^ 24 * s + c) >>> 24 = s := by
  rw [Nat.shiftRight_eq_div_pow, Nat.mul_add_div (by positivity), Nat.div_eq_of_lt hc,
    Nat.add_zero]

lemma pack_mant (c s : ℕ) (hc : c < 2 ^ 23) : (2 ^ 24 * s + c) &&& 0x007fffff = c := by
  have h1 : (0x007fffff : ℕ) = 2 ^ 23 - 1 := by norm_num
  rw [h1, Nat.and_pow_two_sub_one_eq_mod]
  rw [show (2:ℕ) ^ 24 * s = 2 ^ 23 * (2 * s) by ring, Nat.mul_add_mod]
  exact Nat.mod_eq_of_lt hc

/-- Decoding a freshly packed compact (mantissa below the sign bit). -/
lemma setCompactValue_pack (s c : ℕ) (hc : c < 2 ^ 23) :
    setCompactValue (c ||| s <<< 24) =
      if s ≤ 3 then c >>> (8 * (3 - s)) else (c <<< (8 * (s - 3))) % 2 ^ 256 := by
  have hc24 : c < 2 ^ 24 := lt_trans hc (by norm_num)
  unfold setCompactValue
  rw [pack_decompose c s hc24, pack_size c s hc24, pack_mant c s hc]

lemma two_pow_lt_iff {a b : ℕ} : (2:ℕ) ^ a < 2 ^ b ↔ a < b :=
  Nat.pow_lt_pow_iff_right (by norm_num)

/-- The compact round-trip `SetCompact (GetCompact v)` is exactly the grid
floor of `v`: `GetCompact` truncates to the top (at most) 23 mantissa bits at
a byte boundary and decoding reproduces that truncation. -/
theorem roundtrip_eq (v : ℕ) (hv : v < 2 ^ 256) :
    setCompactValue (getCompact v) = gridFloor v := by
  have hv320 : v < 2 ^ 320 := lt_trans hv (by norm_num)
  rcases Nat.eq_zero_or_pos v with hz | hpos
  · subst hz
    decide
  set sb := natBits v with hsbdef
  set s := (sb + 7) / 8 with hsdef
  have hvsb : v < 2 ^ sb := natBits_lt v hv320
  have hub : v < 2 ^ (8 * s) :=
    lt_of_lt_of_le hvsb (Nat.pow_le_pow_right (by norm_num) (by omega))
  have hlbv : 2 ^ (sb - 1) ≤ v := natBits_low v hv320 hpos
  have hsb_pos : 0 < sb := by
    rcases Nat.eq_zero_or_pos sb with h0 | h
    · exfalso
      rw [h0] at hvsb
      omega
    · exact h
  by_cases hs3 : s ≤ 3
  · -- small values: at most three bytes, decoded exactly
    set c := v <<< (8 * (3 - s)) with hcdef
    have hc_eq : c = v * 2 ^ (8 * (3 - s)) := by rw [hcdef, Nat.shiftLeft_eq]
    have hc24 : c < 2 ^ 24 := by
      rw [hc_eq]
      calc v * 2 ^ (8 * (3 - s)) < 2 ^ (8 * s) * 2 ^ (8 * (3 - s)) :=
          Nat.mul_lt_mul_of_lt_of_le hub le_rfl (Nat.pos_pow_of_pos _ (by norm_num))
        _ = 2 ^ 24 := by rw [← pow_add]; congr 1; omega
    have hgc : getCompact v =
        (if 2 ^ 23 ≤ c then (c >>> 8) ||| ((s + 1) <<< 24) else c ||| (s <<< 24)) := by
      simp only [getCompact]
      rw [← hsbdef, ← hsdef, if_pos hs3, ← hcdef, msb_test c hc24]
      simp only [decide_eq_true_eq]
      by_cases hadj : 2 ^ 23 ≤ c
      · rw [if_pos hadj, if_pos hadj, if_pos hadj]
      · rw [if_neg hadj, if_neg hadj, if_neg hadj]
    by_cases hadj : 2 ^ 23 ≤ c
    · rw [hgc, if_pos hadj]
      have hc8 : c >>> 8 < 2 ^ 16 := by
        rw [Nat.shiftRight_eq_div_pow, Nat.div_lt_iff_lt_mul (by positivity)]
        calc c < 2 ^ 24 := hc24
          _ = 2 ^ 16 * 2 ^ 8 := by norm_num
      rw [setCompactValue_pack (s + 1) (c >>> 8) (lt_trans hc8 (by norm_num))]
      by_cases hs2 : s + 1 ≤ 3
      · rw [if_pos hs2]
        have hval : (c >>> 8) >>> (8 * (3 - (s + 1))) = v := by
          rw [Nat.shiftRight_eq_div_pow, Nat.shiftRight_eq_div_pow,
            Nat.div_div_eq_div_mul, hc_eq, ← pow_add]
          rw [show 8 + 8 * (3 - (s + 1)) = 8 * (3 - s) by omega]
          exact Nat.mul_div_cancel _ (Nat.pos_pow_of_pos _ (by norm_num))
        rw [hval]
        have hvlt : v < 2 ^ 16 :=
          lt_of_lt_of_le hub (Nat.pow_le_pow_right (by norm_num) (by omega))
        have hsb23 : sb ≤ 23 := by
          have := lt_of_le_of_lt hlbv hvlt
          rw [two_pow_lt_iff] at this
          omega
        have hbe : bExp v = 0 := by
          unfold bExp
          rw [← hsbdef]
          omega
        unfold gridFloor
        rw [hbe]
        norm_num
      · have hs3e : s = 3 := by omega
        rw [if_neg hs2]
        have hcv : c = v := by rw [hc_eq, hs3e]; norm_num
        have hval : ((c >>> 8) <<< (8 * (s + 1 - 3))) % 2 ^ 256 = 2 ^ 8 * (v / 2 ^ 8) := by
          rw [Nat.shiftRight_eq_div_pow, Nat.shiftLeft_eq, hcv,
            show 8 * (s + 1 - 3) = 8 by omega]
          have h1 : v / 2 ^ 8 * 2 ^ 8 ≤ v := Nat.div_mul_le_self _ _
          rw [Nat.mod_eq_of_lt (lt_of_le_of_lt h1 hv)]
          ring
        rw [hval]
        have h23 : 2 ^ 23 ≤ v := by rw [← hcv]; exact hadj
        have hsb24 : sb = 24 := by
          have h2 : 23 < sb := by
            have := lt_of_le_of_lt h23 hvsb
            rw [two_pow_lt_iff] at this
            exact this
          omega
        have hbe : bExp v = 1 := by
          unfold bExp
          rw [← hsbdef, hsb24]
        unfold gridFloor
        rw [hbe]
    · rw [hgc, if_neg hadj]
      rw [setCompactValue_pack s c (by omega)]
      rw [if_pos hs3]
      have hval : c >>> (8 * (3 - s)) = v := by
        rw [hc_eq, Nat.shiftRight_eq_div_pow]
        exact Nat.mul_div_cancel _ (Nat.pos_pow_of_pos _ (by norm_num))
      rw [hval]
      have hvle : v ≤ c := by
        rw [hc_eq]
        exact Nat.le_mul_of_pos_right _ (Nat.pos_pow_of_pos _ (by norm_num))
      have hvlt : v < 2 ^ 23 := by omega
      have hsb23 : sb ≤ 23 := by
        have := lt_of_le_of_lt hlbv hvlt
        rw [two_pow_lt_iff] at this
        omega
      have hbe : bExp v = 0 := by
        unfold bExp
        rw [← hsbdef]
        omega
      unfold gridFloor
      rw [hbe]
      norm_num
  · -- large values: mantissa is the top bytes
    set c := v >>> (8 * (s - 3)) with hcdef
    have hc_eq : c = v / 2 ^ (8 * (s - 3)) := by rw [hcdef, Nat.shiftRight_eq_div_pow]
    have hc24 : c < 2 ^ 24 := by
      rw [hc_eq, Nat.div_lt_iff_lt_mul (Nat.pos_pow_of_pos _ (by norm_num)), ← pow_add]
      exact lt_of_lt_of_le hub (Nat.pow_le_pow_right (by norm_num) (by omega))
    have hgc : getCompact v =
        (if 2 ^ 23 ≤ c then (c >>> 8) ||| ((s + 1) <<< 24) else c ||| (s <<< 24)) := by
      simp only [getCompact]
      rw [← hsbdef, ← hsdef, if_neg hs3, ← hcdef, msb_test c hc24]
      simp only [decide_eq_true_eq]
      by_cases hadj : 2 ^ 23 ≤ c
      · rw [if_pos hadj, if_pos hadj, if_pos hadj]
      · rw [if_neg hadj, if_neg hadj, if_neg hadj]
    by_cases hadj : 2 ^ 23 ≤ c
    · rw [hgc, if_pos hadj]
      have hc8 : c >>> 8 < 2 ^ 16 := by
        rw [Nat.shiftRight_eq_div_pow, Nat.div_lt_iff_lt_mul (by positivity)]
        calc c < 2 ^ 24 := hc24
          _ = 2 ^ 16 * 2 ^ 8 := by norm_num
      rw [setCompactValue_pack (s + 1) (c >>> 8) (lt_trans hc8 (by norm_num))]
      rw [if_neg (by omega : ¬ s + 1 ≤ 3)]
      have h1 : c >>> 8 = v / 2 ^ (8 * (s - 2)) := by
        rw [Nat.shiftRight_eq_div_pow, hc_eq, Nat.div_div_eq_div_mul, ← pow_add]
        rw [show 8 * (s - 3) + 8 = 8 * (s - 2) by omega]
      have hval : ((c >>> 8) <<< (8 * (s + 1 - 3))) % 2 ^ 256 =
          2 ^ (8 * (s - 2)) * (v / 2 ^ (8 * (s - 2))) := by
        rw [h1, Nat.shiftLeft_eq, show 8 * (s + 1 - 3) = 8 * (s - 2) by omega]
        have hle : v / 2 ^ (8 * (s - 2)) * 2 ^ (8 * (s - 2)) ≤ v := Nat.div_mul_le_self _ _
        rw [Nat.mod_eq_of_lt (lt_of_le_of_lt hle hv)]
        ring
      rw [hval]
      have hsb8s : sb = 8 * s := by
        have h2 : 2 ^ (8 * s - 1) ≤ v := by
          rw [hc_eq, Nat.le_div_iff_mul_le (Nat.pos_pow_of_pos _ (by norm_num))] at hadj
          have he : (2:ℕ) ^ (8 * s - 1) = 2 ^ 23 * 2 ^ (8 * (s - 3)) := by
            rw [show 8 * s - 1 = 23 + 8 * (s - 3) by omega, pow_add]
          omega
        have h3 : 8 * s - 1 < sb := by
          have := lt_of_le_of_lt h2 hvsb
          rw [two_pow_lt_iff] at this
          exact this
        omega
      have hbe : bExp v = s - 2 := by
        unfold bExp
        rw [← hsbdef, hsb8s]
        omega
      unfold gridFloor
      rw [hbe]
    · rw [hgc, if_neg hadj]
      rw [setCompactValue_pack s c (by omega)]
      rw [if_neg hs3]
      have hval : (c <<< (8 * (s - 3))) % 2 ^ 256 =
          2 ^ (8 * (s - 3)) * (v / 2 ^ (8 * (s - 3))) := by
        rw [hc_eq, Nat.shiftLeft_eq]
        have hle : v / 2 ^ (8 * (s - 3)) * 2 ^ (8 * (s - 3)) ≤ v := Nat.div_mul_le_self _ _
        rw [Nat.mod_eq_of_lt (lt_of_le_of_lt hle hv)]
        ring
      rw [hval]
      have hsbub : sb ≤ 8 * s - 1 := by
        have h2 : v < 2 ^ (8 * s - 1) := by
          have h3 : v / 2 ^ (8 * (s - 3)) < 2 ^ 23 := by
            rw [← hc_eq]
            omega
          rw [Nat.div_lt_iff_lt_mul (Nat.pos_pow_of_pos _ (by norm_num))] at h3
          calc v < 2 ^ 23 * 2 ^ (8 * (s - 3)) := h3
            _ = 2 ^ (8 * s - 1) := by rw [← pow_add]; congr 1; omega
        have h4 : sb - 1 < 8 * s - 1 := by
          have := lt_of_le_of_lt hlbv h2
          rw [two_pow_lt_iff] at this
          exact this
        omega
      have hbe : bExp v = s - 3 := by
        unfold bExp
        rw [← hsbdef]
        omega
      unfold gridFloor
      rw [hbe]

lemma setCompactValue_lt (nc : ℕ) : setCompactValue nc < 2 ^ 256 := by
  simp only [setCompactValue]
  have hw : nc &&& 0x007fffff < 2 ^ 23 := by
    rw [show (0x007fffff : ℕ) = 2 ^ 23 - 1 by norm_num, Nat.and_pow_two_sub_one_eq_mod]
    exact Nat.mod_lt _ (by norm_num)
  split
  · have hle1 : (nc &&& 0x007fffff) >>> (8 * (3 - nc >>> 24)) ≤ nc &&& 0x007fffff := by
      rw [Nat.shiftRight_eq_div_pow]
      exact Nat.div_le_self _ _
    exact lt_of_le_of_lt hle1 (lt_trans hw (by norm_num))
  · exact Nat.mod_lt _ (by positivity)

/-- Every decoded compact value is a grid point: a mantissa below `2^23` at a
whole-byte shift. -/
lemma setCompactValue_grid (nc : ℕ) :
    ∃ m k, setCompactValue nc = m * 2 ^ (8 * k) ∧ m < 2 ^ 23 := by
  simp only [setCompactValue]
  have hw : nc &&& 0x007fffff < 2 ^ 23 := by
    rw [show (0x007fffff : ℕ) = 2 ^ 23 - 1 by norm_num, Nat.and_pow_two_sub_one_eq_mod]
    exact Nat.mod_lt _ (by norm_num)
  split
  · have hle1 : (nc &&& 0x007fffff) >>> (8 * (3 - nc >>> 24)) ≤ nc &&& 0x007fffff := by
      rw [Nat.shiftRight_eq_div_pow]
      exact Nat.div_le_self _ _
    exact ⟨(nc &&& 0x007fffff) >>> (8 * (3 - nc >>> 24)), 0, by norm_num,
      lt_of_le_of_lt hle1 hw⟩
  · rcases le_or_lt 256 (8 * (nc >>> 24 - 3)) with hbig | hsmall
    · have hdvd : (2:ℕ) ^ 256 ∣ (nc &&& 0x007fffff) * 2 ^ (8 * (nc >>> 24 - 3)) :=
        Dvd.dvd.mul_left (pow_dvd_pow 2 hbig) _
      refine ⟨0, 0, ?_, by norm_num⟩
      rw [Nat.shiftLeft_eq, zero_mul]
      exact Nat.mod_eq_zero_of_dvd hdvd
    · refine ⟨(nc &&& 0x007fffff) % 2 ^ (256 - 8 * (nc >>> 24 - 3)), nc >>> 24 - 3, ?_, ?_⟩
      · rw [Nat.shiftLeft_eq]
        have hsplit : (2:ℕ) ^ 256 = 2 ^ (8 * (nc >>> 24 - 3)) * 2 ^ (256 - 8 * (nc >>> 24 - 3)) := by
          rw [← pow_add]
          congr 1
          omega
        rw [hsplit, mul_comm (nc &&& 0x007fffff) _, Nat.mul_mod_mul_left]
        ring
      · exact lt_of_le_of_lt (Nat.mod_le _ _) hw

lemma roundtrip_le (v : ℕ) (hv : v < 2 ^ 256) :
    setCompactValue (getCompact v) ≤ v := by
  rw [roundtrip_eq v hv]
  exact gridFloor_le v

lemma roundtrip_mono {u v : ℕ} (hu : u < 2 ^ 256) (hv : v < 2 ^ 256) (h : u ≤ v) :
    setCompactValue (getCompact u) ≤ setCompactValue (getCompact v) := by
  rw [roundtrip_eq u hu, roundtrip_eq v hv]
  exact gridFloor_mono (lt_trans hu (by norm_num)) (lt_trans hv (by norm_num)) h

/-- The round-trip fixes every decoded compact value. -/
lemma roundtrip_fixed (nc : ℕ) :
    setCompactValue (getCompact (setCompactValue nc)) = setCompactValue nc := by
  obtain ⟨m, k, he, hm⟩ := setCompactValue_grid nc
  have hlt : setCompactValue nc < 2 ^ 256 := setCompactValue_lt nc
  rw [roundtrip_eq _ hlt, he, gridFloor_of_grid (by rw [← he]; exact lt_trans hlt (by norm_num)) hm]

/-! ### Facts about the binary64 rounding of `k / 2000` -/

lemma rnS_spec (k : ℕ) (h0 : 0 < k) (h2 : k < 2000) :
    1 ≤ rnS k ∧ 2000 ≤ k * 2 ^ rnS k ∧ k * 2 ^ rnS k < 4000 := by
  rcases le_or_lt 2000 k with c0 | c0
  · exact absurd c0 (by omega)
  rcases le_or_lt 2000 (k * 2) with c1 | c1
  · have hs : rnS k = 1 := by
      unfold rnS
      rw [if_neg (not_le.mpr c0), if_pos c1]
    rw [hs]
    norm_num
    omega
  rcases le_or_lt 2000 (k * 4) with c2 | c2
  · have hs : rnS k = 2 := by
      unfold rnS
      rw [if_neg (not_le.mpr c0), if_neg (not_le.mpr c1), if_pos c2]
    rw [hs]
    norm_num
    omega
  rcases le_or_lt 2000 (k * 8) with c3 | c3
  · have hs : rnS k = 3 := by
      unfold rnS
      rw [if_neg (not_le.mpr c0), if_neg (not_le.mpr c1), if_neg (not_le.mpr c2), if_pos c3]
    rw [hs]
    norm_num
    omega
  rcases le_or_lt 2000 (k * 16) with c4 | c4
  · have hs : rnS k = 4 := by
      unfold rnS
      rw [if_neg (not_le.mpr c0), if_neg (not_le.mpr c1), if_neg (not_le.mpr c2), if_neg (not_le.mpr c3), if_pos c4]
    rw [hs]
    norm_num
    omega
  rcases le_or_lt 2000 (k * 32) with c5 | c5
  · have hs : rnS k = 5 := by
      unfold rnS
      rw [if_neg (not_le.mpr c0), if_neg (not_le.mpr c1), if_neg (not_le.mpr c2), if_neg (not_le.mpr c3), if_neg (not_le.mpr c4), if_pos c5]
    rw [hs]
    norm_num
    omega
  rcases le_or_lt 2000 (k * 64) with c6 | c6
  · have hs : rnS k = 6 := by
      unfold rnS
      rw [if_neg (not_le.mpr c0), if_neg (not_le.mpr c1), if_neg (not_le.mpr c2), if_neg (not_le.mpr c3), if_neg (not_le.mpr c4), if_neg (not_le.mpr c5), if_pos c6]
    rw [hs]
    norm_num
    omega
  rcases le_or_lt 2000 (k * 128) with c7 | c7
  · have hs : rnS k = 7 := by
      unfold rnS
      rw [if_neg (not_le.mpr c0), if_neg (not_le.mpr c1), if_neg (not_le.mpr c2), if_neg (not_le.mpr c3), if_neg (not_le.mpr c4), if_neg (not_le.mpr c5), if_neg (not_le.mpr c6), if_pos c7]
    rw [hs]
    norm_num
    omega
  rcases le_or_lt 2000 (k * 256) with c8 | c8
  · have hs : rnS k = 8 := by
      unfold rnS
      rw [if_neg (not_le.mpr c0), if_neg (not_le.mpr c1), if_neg (not_le.mpr c2), if_neg (not_le.mpr c3), if_neg (not_le.mpr c4), if_neg (not_le.mpr c5), if_neg (not_le.mpr c6), if_neg (not_le.mpr c7), if_pos c8]
    rw [hs]
    norm_num
    omega
  rcases le_or_lt 2000 (k * 512) with c9 | c9
  · have hs : rnS k = 9 := by
      unfold rnS
      rw [if_neg (not_le.mpr c0), if_neg (not_le.mpr c1), if_neg (not_le.mpr c2), if_neg (not_le.mpr c3), if_neg (not_le.mpr c4), if_neg (not_le.mpr c5), if_neg (not_le.mpr c6), if_neg (not_le.mpr c7), if_neg (not_le.mpr c8), if_pos c9]
    rw [hs]
    norm_num
    omega
  rcases le_or_lt 2000 (k * 1024) with c10 | c10
  · have hs : rnS k = 10 := by
      unfold rnS
      rw [if_neg (not_le.mpr c0), if_neg (not_le.mpr c1), if_neg (not_le.mpr c2), if_neg (not_le.mpr c3), if_neg (not_le.mpr c4), if_neg (not_le.mpr c5), if_neg (not_le.mpr c6), if_neg (not_le.mpr c7), if_neg (not_le.mpr c8), if_neg (not_le.mpr c9), if_pos c10]
    rw [hs]
    norm_num
    omega
  · have hs : rnS k = 11 := by
      unfold rnS
      rw [if_neg (not_le.mpr c0), if_neg (not_le.mpr c1), if_neg (not_le.mpr c2), if_neg (not_le.mpr c3), if_neg (not_le.mpr c4), if_neg (not_le.mpr c5), if_neg (not_le.mpr c6), if_neg (not_le.mpr c7), if_neg (not_le.mpr c8), if_neg (not_le.mpr c9), if_neg (not_le.mpr c10)]
    rw [hs]
    norm_num
    omega

lemma rnNum_le (k : ℕ) (h0 : 0 < k) (h2 : k < 2000) : rnNum k ≤ 2 ^ 53 := by
  obtain ⟨hs1, hlo, hhi⟩ := rnS_spec k h0 h2
  simp only [rnNum]
  set P := (2:ℕ) ^ 53 with hP
  set n := k * 2 ^ (52 + rnS k) with hn
  have hnlt : n < 2000 * P := by
    have hsplit : n = k * 2 ^ rnS k * 2 ^ 52 := by
      rw [hn, pow_add]
      ring
    have h4 : (4000:ℕ) * 2 ^ 52 = 2000 * P := by
      rw [hP, pow_succ]
      ring
    calc n = k * 2 ^ rnS k * 2 ^ 52 := hsplit
      _ < 4000 * 2 ^ 52 :=
        Nat.mul_lt_mul_of_lt_of_le hhi le_rfl (by positivity)
      _ = 2000 * P := h4
  have hq : n / 2000 + 1 ≤ P := by
    have : n / 2000 < P := by
      rw [Nat.div_lt_iff_lt_mul (by norm_num)]
      omega
    omega
  by_cases ha : 1000 < n % 2000
  · rw [if_pos ha]
    omega
  · rw [if_neg ha]
    by_cases hb : n % 2000 < 1000
    · rw [if_pos hb]
      omega
    · rw [if_neg hb]
      omega

lemma rn53_nonneg (k : ℕ) : 0 ≤ rn53 k := by
  unfold rn53
  split_ifs
  · norm_num
  · positivity

lemma rn53_le_one (k : ℕ) (h2 : k < 2000) : rn53 k ≤ 1 := by
  unfold rn53
  split_ifs with hk
  · norm_num
  · have h0 : 0 < k := Nat.pos_of_ne_zero hk
    obtain ⟨hs1, _, _⟩ := rnS_spec k h0 h2
    rw [div_le_one (by positivity)]
    calc (rnNum k : ℚ) ≤ 2 ^ 53 := by exact_mod_cast rnNum_le k h0 h2
      _ ≤ 2 ^ (52 + rnS k) := by
        apply pow_le_pow_right₀ (by norm_num)
        omega

/-- The rounded value is within half an ulp — in particular within `2^-53` —
of the exact quotient `k / 2000`. -/
lemma rn53_err (k : ℕ) (h0 : 0 < k) (h2 : k < 2000) :
    |rn53 k - (k : ℚ) / 2000| ≤ 1 / 2 ^ 53 := by
  obtain ⟨hs1, hlo, hhi⟩ := rnS_spec k h0 h2
  unfold rn53
  rw [if_neg (by omega : ¬ k = 0)]
  set e := 52 + rnS k with he
  set n := k * 2 ^ e with hn
  have hmod := Nat.div_add_mod n 2000
  set q := n / 2000 with hq
  set r := n % 2000 with hr
  have hrlt : r < 2000 := Nat.mod_lt _ (by norm_num)
  have hrn : rnNum k = if 1000 < r then q + 1 else if r < 1000 then q else q + q % 2 := by
    rw [hq, hr, hn, he]
    rfl
  have hkq : (k : ℚ) / 2000 = (n : ℚ) / (2000 * 2 ^ e) := by
    rw [hn]
    push_cast
    rw [div_eq_div_iff (by norm_num) (by positivity)]
    ring
  have hdiff : (rnNum k : ℚ) / 2 ^ e - (k : ℚ) / 2000 =
      ((rnNum k : ℚ) * 2000 - n) / (2000 * 2 ^ e) := by
    rw [hkq]
    field_simp
    ring
  have hnum : |(rnNum k : ℚ) * 2000 - n| ≤ 1000 := by
    have hcast : (n : ℚ) = 2000 * q + r := by exact_mod_cast hmod.symm
    have hrq : (r : ℚ) < 2000 := by exact_mod_cast hrlt
    rw [hrn]
    by_cases hgt : 1000 < r
    · have hgtq : (1000:ℚ) < r := by exact_mod_cast hgt
      rw [if_pos hgt, abs_le]
      push_cast
      constructor <;> linarith
    · rw [if_neg hgt]
      have hleq : (r:ℚ) ≤ 1000 := by exact_mod_cast (show r ≤ 1000 by omega)
      by_cases hlt : r < 1000
      · have hltq : (r:ℚ) < 1000 := by exact_mod_cast hlt
        rw [if_pos hlt, abs_le]
        push_cast
        constructor <;> linarith
      · rw [if_neg hlt]
        have hre : r = 1000 := by omega
        have hreq : (r:ℚ) = 1000 := by exact_mod_cast hre
        rcases Nat.even_or_odd q with hev | hod
        · have hq2 : q % 2 = 0 := Nat.even_iff.mp hev
          rw [hq2, abs_le]
          push_cast
          constructor <;> linarith
        · have hq2 : q % 2 = 1 := Nat.odd_iff.mp hod
          rw [hq2, abs_le]
          push_cast
          constructor <;> linarith
  rw [hdiff, abs_div, abs_of_pos (show (0:ℚ) < 2000 * 2 ^ e by positivity)]
  rw [div_le_div_iff (by positivity) (by positivity)]
  have hstep1 : |(rnNum k : ℚ) * 2000 - ↑n| * 2 ^ 53 ≤ 1000 * 2 ^ 53 :=
    mul_le_mul_of_nonneg_right hnum (by positivity)
  have hstep2 : (1000 : ℚ) * 2 ^ 53 ≤ 1 * (2000 * 2 ^ e) := by
    rw [one_mul]
    have hpe : (2:ℚ) ^ 53 ≤ 2 ^ e := by
      apply pow_le_pow_right (by norm_num)
      omega
    nlinarith [hpe]
  linarith [hstep1, hstep2]

lemma rn53_mono (k : ℕ) (h : k + 1 < 2000) : rn53 k ≤ rn53 (k + 1) := by
  rcases Nat.eq_zero_or_pos k with h0 | h0
  · subst h0
    have : rn53 0 = 0 := by simp [rn53]
    rw [this]
    exact rn53_nonneg 1
  · have e1 := rn53_err k h0 (by omega)
    have e2 := rn53_err (k + 1) (by omega) h
    rw [abs_le] at e1 e2
    have hgap : (1:ℚ) / 2000 = ((k + 1 : ℕ) : ℚ) / 2000 - (k : ℚ) / 2000 := by
      push_cast
      ring
    have hsmall : (2:ℚ) / 2 ^ 53 ≤ 1 / 2000 := by norm_num
    linarith [e1.2, e2.1]

/-! ### Transition factor and difficulty limits -/

lemma transitionFactor_nonneg (h : ℤ) : 0 ≤ GetTransitionFactor h := by
  unfold GetTransitionFactor
  split_ifs
  · norm_num
  · norm_num
  · exact rn53_nonneg _

lemma transitionFactor_le_one (h : ℤ) : GetTransitionFactor h ≤ 1 := by
  unfold GetTransitionFactor newRulesActivationHeight transitionWindow
  split_ifs with h1 h2
  · norm_num
  · norm_num
  · exact rn53_le_one _ (by omega)

lemma ratTrunc_intCast (n : ℤ) : ratTrunc (n : ℚ) = n := by
  unfold ratTrunc
  split_ifs
  · exact Int.floor_intCast n
  · exact Int.ceil_intCast n

lemma ratTrunc_bounds {a b : ℤ} {x : ℚ} (ha0 : 0 ≤ a) (hax : (a : ℚ) ≤ x)
    (hxb : x ≤ (b : ℚ)) : a ≤ ratTrunc x ∧ ratTrunc x ≤ b := by
  have hx0 : (0:ℚ) ≤ x := le_trans (by exact_mod_cast ha0) hax
  unfold ratTrunc
  rw [if_pos hx0]
  constructor
  · exact Int.le_floor.mpr hax
  · calc ⌊x⌋ ≤ ⌊(b : ℚ)⌋ := Int.floor_le_floor hxb
      _ = b := Int.floor_intCast b

lemma tdiv_toNat (t c : ℕ) : ((t : ℤ)).tdiv (c : ℤ) = ((t / c : ℕ) : ℤ) := rfl

/-- The upper limit computed by `GetDifficultyLimits` is exactly
`4 * targetTimespan` at every height and factor: every tier shares the same
target maximum, so the interpolation is constant. -/
lemma limits_snd (height : ℤ) (f : ℚ) (p : Params) :
    (GetDifficultyLimits height f p).2 = p.nPowTargetTimespan * 4 := by
  simp only [GetDifficultyLimits]
  split_ifs
  · rfl
  all_goals
    simp only [sub_self, zero_mul, add_zero]
    exact ratTrunc_intCast _

/-- Truncated linear interpolation between two integers stays between them. -/
lemma interp_bounds (tMin nMin : ℤ) (f : ℚ) (hf0 : 0 ≤ f) (hf1 : f ≤ 1)
    (h0 : 0 ≤ tMin) (hle : tMin ≤ nMin) :
    tMin ≤ ratTrunc ((nMin : ℚ) + ((tMin : ℚ) - (nMin : ℚ)) * f) ∧
    ratTrunc ((nMin : ℚ) + ((tMin : ℚ) - (nMin : ℚ)) * f) ≤ nMin := by
  have hcast : (tMin : ℚ) ≤ (nMin : ℚ) := by exact_mod_cast hle
  have hlow : (tMin : ℚ) ≤ (nMin : ℚ) + ((tMin : ℚ) - (nMin : ℚ)) * f := by
    nlinarith [mul_nonneg (sub_nonneg.mpr hcast) (sub_nonneg.mpr hf1)]
  have hhigh : (nMin : ℚ) + ((tMin : ℚ) - (nMin : ℚ)) * f ≤ (nMin : ℚ) := by
    nlinarith [mul_nonneg (sub_nonneg.mpr hcast) hf0]
  exact ratTrunc_bounds h0 hlow hhigh

/-- The lower limit computed by `GetDifficultyLimits` lies between
`targetTimespan tdiv 16` and `targetTimespan tdiv 4` whenever the factor is
in `[0, 1]`. -/
lemma limits_fst_bounds (height : ℤ) (f : ℚ) (p : Params) (hf0 : 0 ≤ f) (hf1 : f ≤ 1)
    (hT : 0 < p.nPowTargetTimespan) :
    p.nPowTargetTimespan.tdiv 16 ≤ (GetDifficultyLimits height f p).1 ∧
    (GetDifficultyLimits height f p).1 ≤ p.nPowTargetTimespan.tdiv 4 := by
  obtain ⟨t, ht⟩ : ∃ t : ℕ, p.nPowTargetTimespan = (t : ℤ) :=
    ⟨p.nPowTargetTimespan.toNat, (Int.toNat_of_nonneg hT.le).symm⟩
  have h16 : (t:ℤ).tdiv 16 = ((t / 16 : ℕ) : ℤ) := tdiv_toNat t 16
  have h8 : (t:ℤ).tdiv 8 = ((t / 8 : ℕ) : ℤ) := tdiv_toNat t 8
  have h4 : (t:ℤ).tdiv 4 = ((t / 4 : ℕ) : ℤ) := tdiv_toNat t 4
  have hd1 : (t:ℤ).tdiv 16 ≤ (t:ℤ).tdiv 8 := by
    rw [h16, h8]
    exact_mod_cast Nat.div_le_div_left (by norm_num) (by norm_num)
  have hd2 : (t:ℤ).tdiv 8 ≤ (t:ℤ).tdiv 4 := by
    rw [h8, h4]
    exact_mod_cast Nat.div_le_div_left (by norm_num) (by norm_num)
  have h160 : 0 ≤ (t:ℤ).tdiv 16 := by
    rw [h16]
    exact_mod_cast Nat.zero_le _
  have h80 : 0 ≤ (t:ℤ).tdiv 8 := le_trans h160 hd1
  have h40 : 0 ≤ (t:ℤ).tdiv 4 := le_trans h80 hd2
  simp only [GetDifficultyLimits]
  rw [ht]
  split_ifs
  · exact ⟨hd1.trans hd2, le_rfl⟩
  · obtain ⟨hl, hh⟩ := interp_bounds ((t:ℤ).tdiv 4) ((t:ℤ).tdiv 4) f hf0 hf1 h40 le_rfl
    exact ⟨le_trans (hd1.trans hd2) hl, hh⟩
  · obtain ⟨hl, hh⟩ := interp_bounds ((t:ℤ).tdiv 8) ((t:ℤ).tdiv 4) f hf0 hf1 h80 hd2
    exact ⟨le_trans hd1 hl, hh⟩
  · obtain ⟨hl, hh⟩ := interp_bounds ((t:ℤ).tdiv 16) ((t:ℤ).tdiv 4) f hf0 hf1 h160 (hd1.trans hd2)
    exact ⟨hl, hh⟩

/-! ### Evaluating the 256-bit timespan arithmetic away from the wrap cases -/

lemma mulTS_eq (a : ℕ) (t : ℤ) (h0 : 0 ≤ t) (h32 : t < 2 ^ 32)
    (hnw : a * t.toNat < 2 ^ 256) : mulTS a t = a * t.toNat := by
  unfold mulTS
  rw [Int.emod_eq_of_lt h0 h32, Nat.mod_eq_of_lt hnw]

lemma divTS_eq (a : ℕ) (t : ℤ) (h0 : 0 ≤ t) (h64 : t < 2 ^ 64) :
    divTS a t = a / t.toNat := by
  unfold divTS
  rw [Int.emod_eq_of_lt h0 h64]

/-! ### The transition guard accepts on an adjustment height -/

/-- The decoded upper bound the guard compares against: the round-trip of the
clamped `old * maxTimespan / targetTimespan`. -/
def guardMax (p : Params) (height : ℤ) (old_nbits : ℕ) : ℕ :=
  let lg := divTS (mulTS (setCompactValue old_nbits)
      (GetDifficultyLimits height (GetTransitionFactor height) p).2) p.nPowTargetTimespan
  setCompactValue (getCompact (if lg > p.powLimit then p.powLimit else lg))

/-- The decoded lower bound the guard compares against: the round-trip of the
clamped `old * minTimespan / targetTimespan`. -/
def guardMin (p : Params) (height : ℤ) (old_nbits : ℕ) : ℕ :=
  let sm := divTS (mulTS (setCompactValue old_nbits)
      (GetDifficultyLimits height (GetTransitionFactor height) p).1) p.nPowTargetTimespan
  setCompactValue (getCompact (if sm > p.powLimit then p.powLimit else sm))

/-- On an adjustment height of a chain without the minimum-difficulty
exception, the guard permits exactly the decoded values between its two
round-tripped bounds. -/
lemma permitted_of_bounds (p : Params) (height : ℤ) (old_nbits new_nbits : ℕ)
    (hmd : p.fPowAllowMinDifficultyBlocks = false)
    (hb : height.tmod (DifficultyAdjustmentInterval p) = 0)
    (hmax : setCompactValue new_nbits ≤ guardMax p height old_nbits)
    (hmin : guardMin p height old_nbits ≤ setCompactValue new_nbits) :
    PermittedDifficultyTransition p height old_nbits new_nbits = true := by
  simp only [guardMax] at hmax
  simp only [guardMin] at hmin
  simp only [PermittedDifficultyTransition, hmd]
  rw [if_neg (by simp), if_pos hb]
  rw [if_neg (not_lt.mpr hmax), if_neg (not_lt.mpr hmin)]

/-- An already-decoded value at most `powLimit` always lies between the
guard's bounds for itself: the key step of guard reflexivity. -/
lemma guard_bounds_self (p : Params) (height : ℤ) (x : ℕ)
    (hT : 0 < p.nPowTargetTimespan)
    (h32 : p.nPowTargetTimespan * 4 < 2 ^ 32)
    (hL : p.powLimit < 2 ^ 256)
    (hold : setCompactValue x ≤ p.powLimit)
    (hnw : setCompactValue x * (p.nPowTargetTimespan * 4).toNat < 2 ^ 256) :
    setCompactValue x ≤ guardMax p height x ∧ guardMin p height x ≤ setCompactValue x := by
  have hf0 := transitionFactor_nonneg height
  have hf1 := transitionFactor_le_one height
  obtain ⟨hminlo, hminhi⟩ := limits_fst_bounds height (GetTransitionFactor height) p hf0 hf1 hT
  have hmax2 := limits_snd height (GetTransitionFactor height) p
  set o := setCompactValue x with ho
  have holt : o < 2 ^ 256 := setCompactValue_lt x
  obtain ⟨tn, ht⟩ : ∃ tn : ℕ, p.nPowTargetTimespan = (tn : ℤ) :=
    ⟨p.nPowTargetTimespan.toNat, (Int.toNat_of_nonneg hT.le).symm⟩
  have htn0 : 0 < tn := by omega
  have htn32 : (tn : ℤ) * 4 < 2 ^ 32 := by rw [← ht]; exact h32
  have ht4 : (p.nPowTargetTimespan * 4).toNat = 4 * tn := by rw [ht]; omega
  have hlim1le : (GetDifficultyLimits height (GetTransitionFactor height) p).1 ≤ (tn : ℤ) := by
    have hdiv : p.nPowTargetTimespan.tdiv 4 ≤ p.nPowTargetTimespan := by
      rw [Int.tdiv_eq_ediv hT.le (by norm_num)]
      exact Int.ediv_le_self _ hT.le
    have h1 := le_trans hminhi hdiv
    rw [ht] at h1
    exact h1
  have hlim10 : 0 ≤ (GetDifficultyLimits height (GetTransitionFactor height) p).1 :=
    le_trans (Int.tdiv_nonneg hT.le (by norm_num)) hminlo
  constructor
  · -- maximum side: old * 4T / T = 4 * old, and o ≤ min (4 o) L round-trips above o
    simp only [guardMax]
    have hm : mulTS o (GetDifficultyLimits height (GetTransitionFactor height) p).2 =
        o * (4 * tn) := by
      rw [hmax2, mulTS_eq _ _ (by rw [ht]; omega) h32 hnw, ht4]
    have hd : divTS (o * (4 * tn)) p.nPowTargetTimespan = 4 * o := by
      rw [divTS_eq _ _ hT.le (lt_trans h32 (by norm_num) |> lt_of_le_of_lt (by rw [ht]; omega)), ht]
      rw [show ((tn : ℤ)).toNat = tn from rfl]
      rw [show o * (4 * tn) = 4 * o * tn by ring]
      exact Nat.mul_div_cancel _ htn0
    rw [hm, hd]
    have hself : setCompactValue (getCompact o) = o := roundtrip_fixed x
    by_cases hcl : 4 * o > p.powLimit
    · rw [if_pos hcl]
      calc o = setCompactValue (getCompact o) := hself.symm
        _ ≤ setCompactValue (getCompact p.powLimit) := roundtrip_mono holt hL hold
    · rw [if_neg hcl]
      calc o = setCompactValue (getCompact o) := hself.symm
        _ ≤ setCompactValue (getCompact (4 * o)) := by
          apply roundtrip_mono holt _ (by omega)
          omega
  · -- minimum side: old * minT / T ≤ old, and the round-trip only shrinks
    simp only [guardMin]
    set lim1 := (GetDifficultyLimits height (GetTransitionFactor height) p).1 with hlim1
    have hl32 : lim1 < 2 ^ 32 := lt_of_le_of_lt hlim1le (by omega)
    have hlnw : o * lim1.toNat < 2 ^ 256 := by
      apply lt_of_le_of_lt _ hnw
      apply Nat.mul_le_mul_left
      rw [ht4]
      omega
    have hm : mulTS o lim1 = o * lim1.toNat := mulTS_eq _ _ hlim10 hl32 hlnw
    have hd : divTS (o * lim1.toNat) p.nPowTargetTimespan = o * lim1.toNat / tn := by
      rw [divTS_eq _ _ hT.le (by rw [ht]; omega), ht]
      rfl
    have hsm : o * lim1.toNat / tn ≤ o := by
      have h1 : o * lim1.toNat ≤ o * tn := Nat.mul_le_mul_left _ (by omega)
      have h2 : o * lim1.toNat / tn ≤ o * tn / tn := Nat.div_le_div_right h1
      rw [Nat.mul_div_cancel _ htn0] at h2
      exact h2
    rw [hm, hd]
    by_cases hcl : o * lim1.toNat / tn > p.powLimit
    · rw [if_pos hcl]
      calc setCompactValue (getCompact p.powLimit) ≤ p.powLimit := roundtrip_le _ hL
        _ ≤ o * lim1.toNat / tn := le_of_lt hcl
        _ ≤ o := hsm
    · rw [if_neg hcl]
      calc setCompactValue (getCompact (o * lim1.toNat / tn)) ≤ o * lim1.toNat / tn :=
          roundtrip_le _ (lt_of_le_of_lt hsm holt)
        _ ≤ o := hsm

/-! ### Claim theorems -/

/-- C3: `CheckProofOfWork(hash, nBits, params)` returns true if and only if
decoding `nBits` yields a target that is not negative-flagged, not zero, not
overflow-flagged, does not exceed `powLimit`, and the hash magnitude is at
most that target. -/
theorem checkProofOfWork_iff (hash nbits : ℕ) (p : Params) :
    CheckProofOfWork hash nbits p = true ↔
      (setCompactNegative nbits = false ∧ setCompactValue nbits ≠ 0 ∧
       setCompactOverflow nbits = false ∧ setCompactValue nbits ≤ p.powLimit ∧
       hash ≤ setCompactValue nbits) := by
  simp only [CheckProofOfWork]
  by_cases h1 : (setCompactNegative nbits || (setCompactValue nbits == 0) ||
      setCompactOverflow nbits || decide (setCompactValue nbits > p.powLimit)) = true
  · rw [if_pos h1]
    simp only [Bool.or_eq_true, beq_iff_eq, decide_eq_true_eq] at h1
    constructor
    · intro hfalse
      exact absurd hfalse (by simp)
    · rintro ⟨hn, hz, ho, hl, hh⟩
      rcases h1 with ((h | h) | h) | h
      · rw [hn] at h
        exact absurd h (by simp)
      · exact absurd h hz
      · rw [ho] at h
        exact absurd h (by simp)
      · omega
  · rw [if_neg h1]
    simp only [Bool.or_eq_true, beq_iff_eq, decide_eq_true_eq, not_or] at h1
    obtain ⟨⟨⟨hn, hz⟩, ho⟩, hl⟩ := h1
    by_cases h2 : hash > setCompactValue nbits
    · rw [if_pos h2]
      constructor
      · intro hfalse
        exact absurd hfalse (by simp)
      · rintro ⟨_, _, _, _, hh⟩
        omega
    · rw [if_neg h2]
      simp only [true_iff]
      refine ⟨?_, hz, ?_, by omega, by omega⟩
      · revert hn
        cases setCompactNegative nbits <;> simp
      · revert ho
        cases setCompactOverflow nbits <;> simp

/-- C4: `PermittedDifficultyTransition` permits everything on a chain that
allows minimum-difficulty blocks; on other chains, at a non-adjustment height
it permits exactly the unchanged compact value. -/
theorem permitted_minDiff_and_nonboundary (p : Params) (h : ℤ) (o n : ℕ) :
    (p.fPowAllowMinDifficultyBlocks = true → PermittedDifficultyTransition p h o n = true) ∧
    (p.fPowAllowMinDifficultyBlocks = false →
      h.tmod (DifficultyAdjustmentInterval p) ≠ 0 →
      (PermittedDifficultyTransition p h o n = true ↔ o = n)) := by
  constructor
  · intro hmd
    simp only [PermittedDifficultyTransition, hmd]
    simp
  · intro hmd hnb
    simp only [PermittedDifficultyTransition, hmd]
    rw [if_neg (by simp), if_neg hnb]
    by_cases he : o = n
    · rw [if_neg (by omega : ¬ o ≠ n)]
      simp [he]
    · rw [if_pos he]
      simp [he]

/-- Witness for C4 at concrete inputs: a minimum-difficulty chain permits a
changed value, and a non-boundary height on a strict chain permits exactly
equality. -/
theorem permitted_minDiff_and_nonboundary_witness :
    PermittedDifficultyTransition ⟨0, 1, 1, true, false, 0⟩ 5 7 9 = true ∧
    (PermittedDifficultyTransition ⟨0, 3, 10, false, false, 0⟩ 40 7 7 = true ↔ (7:ℕ) = 7) :=
  ⟨(permitted_minDiff_and_nonboundary ⟨0, 1, 1, true, false, 0⟩ 5 7 9).1 rfl,
   (permitted_minDiff_and_nonboundary ⟨0, 3, 10, false, false, 0⟩ 40 7 7).2 rfl (by decide)⟩

/-- Binary64 rounding (round to nearest, ties to even) of a natural number:
the exact value of the `double` nearest to `n`.  This is what C++'s
`int64_t`-to-`double` conversion produces; it is the identity for up to 53
significant bits. -/
def rnd53Int (n : ℕ) : ℕ :=
  if natBits n ≤ 53 then n
  else
    let s := natBits n - 53
    let q := n >>> s
    let r := n % 2 ^ s
    let half := 2 ^ (s - 1)
    (if half < r then q + 1 else if r < half then q else q + q % 2) <<< s

/-- The exact value of the C++ `int64_t`-to-`double` conversion. -/
def dblOfInt (x : ℤ) : ℤ :=
  if x < 0 then -(rnd53Int (-x).toNat : ℤ) else (rnd53Int x.toNat : ℤ)

/-- `GetDifficultyLimits` from `pow.cpp` evaluated at the activation height
`175000`, where `transitionFactor = 0.0`, with the source's binary64
arithmetic carried out exactly.  The source computes
`nMin + (targetMin - nMin) * transitionFactor` in `double`: the product of a
finite `double` with `0.0` is `±0.0` and adding `±0.0` to a `double` changes
nothing, so each limit collapses to the `double` conversion of the baseline
`int64_t` value (`timespan/4` respectively `timespan*4`); the store back to
`int64_t` is exact because that conversion yields an integer value. -/
def GetDifficultyLimitsActivation (p : Params) : ℤ × ℤ :=
  (dblOfInt (p.nPowTargetTimespan.tdiv 4), dblOfInt (p.nPowTargetTimespan * 4))

lemma rnd53Int_of_small {n : ℕ} (h : n < 2 ^ 53) : rnd53Int n = n := by
  have hb : natBits n ≤ 53 := by
    rcases Nat.eq_zero_or_pos n with h0 | h0
    · subst h0
      rw [show natBits 0 = 0 from bitsRec_zero 320]
      omega
    · by_contra hc
      push_neg at hc
      have hlow := natBits_low n (by omega) h0
      have hpow : (2:ℕ) ^ 53 ≤ 2 ^ (natBits n - 1) :=
        Nat.pow_le_pow_right (by norm_num) (by omega)
      omega
  simp only [rnd53Int]
  rw [if_pos hb]

lemma dblOfInt_of_small {x : ℤ} (h0 : 0 ≤ x) (h : x < 2 ^ 53) : dblOfInt x = x := by
  simp only [dblOfInt]
  rw [if_neg (not_lt.mpr h0), rnd53Int_of_small (by omega), Int.toNat_of_nonneg h0]

lemma transitionFactor_at_activation : GetTransitionFactor 175000 = 0 := by
  simp only [GetTransitionFactor, newRulesActivationHeight, transitionWindow]
  rw [if_neg (by norm_num), if_neg (by norm_num)]
  norm_num [rn53]

/-- C7 (amended): at the activation height the transition factor is exactly
`0.0`, and the difficulty limits the program computes equal the legacy
baseline `(targetTimespan / 4, targetTimespan * 4)` for every parameter set
whose `4 × targetTimespan` is below `2^53`, so that both baseline values are
exactly representable in binary64.  For larger timespans the source's
`int64_t`-to-`double` conversions round and the limits deviate from the
baseline — see the counterexample at timespan `2^55 + 4`. -/
theorem activation_height_legacy_limits (p : Params)
    (hT : 0 ≤ p.nPowTargetTimespan)
    (h53 : p.nPowTargetTimespan * 4 < 2 ^ 53) :
    GetTransitionFactor 175000 = 0 ∧
    GetDifficultyLimitsActivation p =
      (p.nPowTargetTimespan.tdiv 4, p.nPowTargetTimespan * 4) := by
  refine ⟨transitionFactor_at_activation, ?_⟩
  have hd4 : p.nPowTargetTimespan.tdiv 4 ≤ p.nPowTargetTimespan := by
    rw [Int.tdiv_eq_ediv hT (by norm_num)]
    exact Int.ediv_le_self _ hT
  have hd0 : 0 ≤ p.nPowTargetTimespan.tdiv 4 := Int.tdiv_nonneg hT (by norm_num)
  simp only [GetDifficultyLimitsActivation]
  rw [dblOfInt_of_small hd0 (by omega), dblOfInt_of_small (by omega) (by omega)]

set_option maxRecDepth 10000 in
/-- Counterexample for C7 as stated: with target timespan `2^55 + 4` the
transition factor at the activation height is `0.0` as claimed, but the
minimum timespan the program computes is the `double` conversion of
`timespan / 4 = 2^53 + 1`, which rounds (ties to even) to `2^53` and so
differs from the legacy baseline. -/
theorem activation_height_legacy_limits_cex :
    GetTransitionFactor 175000 = 0 ∧
    (GetDifficultyLimitsActivation (⟨0, 60, 2 ^ 55 + 4, false, false, 0⟩ : Params)).1 ≠
      ((2 ^ 55 + 4 : ℤ)).tdiv 4 := by
  refine ⟨transitionFactor_at_activation, ?_⟩
  decide

/-- Witness for C7's amended theorem at a concrete parameter set. -/
theorem activation_height_legacy_limits_witness :
    GetTransitionFactor 175000 = 0 ∧
    GetDifficultyLimitsActivation (⟨0, 60, 14400, false, false, 0⟩ : Params) =
      ((14400 : ℤ).tdiv 4, (14400 : ℤ) * 4) :=
  activation_height_legacy_limits ⟨0, 60, 14400, false, false, 0⟩ (by norm_num) (by norm_num)

/-- C8 (amended): for factors in `[0, 1]` and positive target timespan the
pair satisfies `max ≥ min ≥ 0`, with `min > 0` whenever the target timespan
is at least 16 (for smaller timespans the truncated tier divisions can reach
zero). -/
theorem difficulty_limits_ordered (height : ℤ) (f : ℚ) (p : Params)
    (hf0 : 0 ≤ f) (hf1 : f ≤ 1) (hT : 0 < p.nPowTargetTimespan) :
    (GetDifficultyLimits height f p).1 ≤ (GetDifficultyLimits height f p).2 ∧
    0 ≤ (GetDifficultyLimits height f p).1 ∧
    (16 ≤ p.nPowTargetTimespan → 0 < (GetDifficultyLimits height f p).1) := by
  obtain ⟨hlo, hhi⟩ := limits_fst_bounds height f p hf0 hf1 hT
  have hsnd := limits_snd height f p
  have hd4 : p.nPowTargetTimespan.tdiv 4 ≤ p.nPowTargetTimespan := by
    rw [Int.tdiv_eq_ediv hT.le (by norm_num)]
    exact Int.ediv_le_self _ hT.le
  refine ⟨?_, le_trans (Int.tdiv_nonneg hT.le (by norm_num)) hlo, ?_⟩
  · rw [hsnd]
    omega
  · intro h16
    have h1 : 1 ≤ p.nPowTargetTimespan.tdiv 16 := by
      rw [Int.tdiv_eq_ediv hT.le (by norm_num)]
      rw [Int.le_ediv_iff_mul_le (by norm_num)]
      omega
    omega

/-- Counterexample for C8 as stated: with target timespan `8` (positive) and
factor `1.0` at the activation height, the computed minimum timespan is `0`,
not positive. -/
theorem difficulty_limits_min_zero_cex :
    (0:ℚ) ≤ 1 ∧ (1:ℚ) ≤ 1 ∧ (0:ℤ) < 8 ∧
    ¬ (0 < (GetDifficultyLimits 175000 1 (⟨0, 60, 8, false, false, 0⟩ : Params)).1) := by
  refine ⟨le_refl _ |>.trans (by norm_num), le_refl 1, by norm_num, ?_⟩
  have hval : (GetDifficultyLimits 175000 1 (⟨0, 60, 8, false, false, 0⟩ : Params)).1 = 0 := by
    simp only [GetDifficultyLimits, newRulesActivationHeight]
    rw [if_neg (by norm_num), if_neg (by norm_num), if_neg (by norm_num)]
    have h1 : ((8:ℤ)).tdiv 4 = 2 := by decide
    have h2 : ((8:ℤ)).tdiv 16 = 0 := by decide
    simp only [h1, h2]
    have h3 : ((2:ℤ):ℚ) + (((0:ℤ):ℚ) - ((2:ℤ):ℚ)) * 1 = ((0:ℤ):ℚ) := by push_cast; ring
    rw [h3, ratTrunc_intCast]
  rw [hval]
  omega

/-- Witness for C8's amended theorem at a concrete input. -/
theorem difficulty_limits_ordered_witness :
    (GetDifficultyLimits 175100 (1/2) (⟨0, 60, 14400, false, false, 0⟩ : Params)).1 ≤
      (GetDifficultyLimits 175100 (1/2) (⟨0, 60, 14400, false, false, 0⟩ : Params)).2 ∧
    0 < (GetDifficultyLimits 175100 (1/2) (⟨0, 60, 14400, false, false, 0⟩ : Params)).1 :=
  ⟨(difficulty_limits_ordered 175100 (1/2) _ (by norm_num) (by norm_num) (by norm_num)).1,
   (difficulty_limits_ordered 175100 (1/2) _ (by norm_num) (by norm_num) (by norm_num)).2.2
     (by norm_num)⟩

/-- C10 (amended): `PermittedDifficultyTransition` is reflexive for every
height and every compact value that decodes cleanly to at most `powLimit`,
provided `4 * targetTimespan` also fits in 32 bits (the source multiplies by
the timespan converted to `uint32_t`, so larger timespans wrap and can make
the guard reject even an unchanged value). -/
theorem permitted_reflexive (p : Params) (h : ℤ) (x : ℕ)
    (hT : 0 < p.nPowTargetTimespan)
    (h32 : p.nPowTargetTimespan * 4 < 2 ^ 32)
    (hL : p.powLimit < 2 ^ 256)
    (hneg : setCompactNegative x = false)
    (hovf : setCompactOverflow x = false)
    (hold : setCompactValue x ≤ p.powLimit)
    (hnw : setCompactValue x * (p.nPowTargetTimespan * 4).toNat < 2 ^ 256) :
    PermittedDifficultyTransition p h x x = true := by
  by_cases hmd : p.fPowAllowMinDifficultyBlocks
  · simp only [PermittedDifficultyTransition, hmd]
    simp
  · have hmd2 : p.fPowAllowMinDifficultyBlocks = false := by
      revert hmd
      cases p.fPowAllowMinDifficultyBlocks <;> simp
    by_cases hb : h.tmod (DifficultyAdjustmentInterval p) = 0
    · obtain ⟨hmax, hmin⟩ := guard_bounds_self p h x hT h32 hL hold hnw
      exact permitted_of_bounds p h x x hmd2 hb hmax hmin
    · simp only [PermittedDifficultyTransition, hmd2]
      rw [if_neg (by simp), if_neg hb, if_neg (by omega : ¬ x ≠ x)]

/-- Counterexample for C10 as stated: with target timespan `2^30` the guard's
multiplication by `maxTimespan = 2^32` is performed after conversion to
`uint32_t`, so it multiplies by `0` and rejects the unchanged value, even
though all of the claim's hypotheses hold. -/
theorem permitted_reflexive_cex :
    (0:ℤ) < 2 ^ 30 ∧
    setCompactNegative 0x1b00ffff = false ∧
    setCompactOverflow 0x1b00ffff = false ∧
    setCompactValue 0x1b00ffff ≤ 0xffff * 2 ^ 192 ∧
    setCompactValue 0x1b00ffff * ((2 ^ 30 : ℤ) * 4).toNat < 2 ^ 256 ∧
    PermittedDifficultyTransition (⟨0xffff * 2 ^ 192, 1, 2 ^ 30, false, false, 0⟩ : Params)
      0 0x1b00ffff 0x1b00ffff = false := by
  decide

/-- Witness for C10's amended theorem at a concrete input. -/
theorem permitted_reflexive_witness :
    PermittedDifficultyTransition (⟨0xffff * 2 ^ 208, 60, 60, false, false, 0⟩ : Params)
      7 0x1d00ffff 0x1d00ffff = true :=
  permitted_reflexive _ 7 0x1d00ffff (by norm_num) (by norm_num) (by norm_num)
    (by decide) (by decide) (by decide) (by decide)

/-- C5 (amended): with retargeting enabled, the value
`CalculateNextWorkRequired` encodes is clamped to at most `powLimit` (so the
decoded result never exceeds it); and in the scenario where the previous
target decodes to exactly `powLimit` and the actual timespan is ten times the
target timespan, the returned compact equals `powLimit`'s compact encoding —
provided the target timespan is positive, `4 * timespan` fits in 32 bits
(the source multiplies by the timespan converted to `uint32_t`, so larger
values are truncated mod `2^32`), and `powLimit * 4*timespan` does not wrap
past `2^256` (the 256-bit multiply in the source wraps silently, which
breaks the scenario for extreme parameter sets). -/
theorem calculateNextWork_clamped (last : BlockIndex) (firstTime : ℤ) (p : Params)
    (hnr : p.fPowNoRetargeting = false) (hL : p.powLimit < 2 ^ 256) :
    setCompactValue (CalculateNextWorkRequired last firstTime p) ≤ p.powLimit ∧
    (setCompactValue last.nBits = p.powLimit →
     last.nTime - firstTime = 10 * p.nPowTargetTimespan →
     0 < p.nPowTargetTimespan →
     p.nPowTargetTimespan * 4 < 2 ^ 32 →
     p.powLimit * (p.nPowTargetTimespan * 4).toNat < 2 ^ 256 →
     CalculateNextWorkRequired last firstTime p = getCompact p.powLimit) := by
  set o := setCompactValue last.nBits with ho
  set lim := GetDifficultyLimits (last.nHeight + 1) (GetTransitionFactor (last.nHeight + 1)) p
    with hlim
  set act := last.nTime - firstTime with hact
  set md := (if act < lim.1 then lim.1 else if act > lim.2 then lim.2 else act) with hmd
  set d := divTS (mulTS o md) p.nPowTargetTimespan with hd
  have hcalc : CalculateNextWorkRequired last firstTime p =
      getCompact (if d > p.powLimit then p.powLimit else d) := by
    simp only [CalculateNextWorkRequired, hnr]
    rw [if_neg (by simp)]
  constructor
  · rw [hcalc]
    by_cases hclamp : d > p.powLimit
    · rw [if_pos hclamp]
      exact roundtrip_le _ hL
    · rw [if_neg hclamp]
      exact le_trans (roundtrip_le _ (lt_of_le_of_lt (not_lt.mp hclamp) hL)) (not_lt.mp hclamp)
  · intro hdecodes hts hT h32 hnw
    have hf0 := transitionFactor_nonneg (last.nHeight + 1)
    have hf1 := transitionFactor_le_one (last.nHeight + 1)
    obtain ⟨hlo, hhi⟩ := limits_fst_bounds (last.nHeight + 1)
      (GetTransitionFactor (last.nHeight + 1)) p hf0 hf1 hT
    have hsnd := limits_snd (last.nHeight + 1) (GetTransitionFactor (last.nHeight + 1)) p
    rw [← hlim] at hlo hhi hsnd
    have hd4 : p.nPowTargetTimespan.tdiv 4 ≤ p.nPowTargetTimespan := by
      rw [Int.tdiv_eq_ediv hT.le (by norm_num)]
      exact Int.ediv_le_self _ hT.le
    have hact10 : act = 10 * p.nPowTargetTimespan := hts
    have hmdval : md = p.nPowTargetTimespan * 4 := by
      rw [hmd, hact10, hsnd]
      rw [if_neg (by omega), if_pos (by omega)]
    obtain ⟨tn, htn⟩ : ∃ tn : ℕ, p.nPowTargetTimespan = (tn : ℤ) :=
      ⟨p.nPowTargetTimespan.toNat, (Int.toNat_of_nonneg hT.le).symm⟩
    have htn0 : 0 < tn := by omega
    have ht4 : (p.nPowTargetTimespan * 4).toNat = 4 * tn := by rw [htn]; omega
    have hdval : d = 4 * p.powLimit := by
      rw [hd, hmdval, hdecodes]
      rw [mulTS_eq _ _ (by rw [htn]; omega) h32 (by rw [ht4]; rw [ht4] at hnw; exact hnw)]
      rw [divTS_eq _ _ hT.le (by rw [htn]; omega), ht4, htn]
      rw [show ((tn : ℤ)).toNat = tn from rfl]
      rw [show p.powLimit * (4 * tn) = 4 * p.powLimit * tn by ring, Nat.mul_div_cancel _ htn0]
    rw [hcalc, hdval]
    by_cases hL0 : 0 < p.powLimit
    · rw [if_pos (by omega)]
    · have hz : p.powLimit = 0 := by omega
      rw [hz]
      norm_num

set_option maxRecDepth 10000 in
/-- Counterexample for C5 as stated: previous target decodes to exactly
`powLimit = 0x7fffff·2^232`, the timespan is `16` seconds, and the actual
timespan is `160 = 10×16`; the 256-bit multiply `powLimit * 64` wraps mod
`2^256` and the result is not `powLimit`'s compact encoding. -/
theorem calculateNextWork_clamped_cex :
    ((⟨0x7fffff * 2 ^ 232, 60, 16, false, false, 0⟩ : Params).fPowNoRetargeting = false) ∧
    setCompactValue 0x207fffff = (0x7fffff * 2 ^ 232 : ℕ) ∧
    ((BlockIndex.mk 0 1000 0x207fffff 0 none).nTime - 840 = 10 * 16) ∧
    CalculateNextWorkRequired (BlockIndex.mk 0 1000 0x207fffff 0 none) 840
      (⟨0x7fffff * 2 ^ 232, 60, 16, false, false, 0⟩ : Params) ≠
      getCompact (0x7fffff * 2 ^ 232) := by
  decide

/-- Witness for C5's amended theorem at a concrete input. -/
theorem calculateNextWork_clamped_witness :
    setCompactValue (CalculateNextWorkRequired (BlockIndex.mk 0 1000 0x1d00ffff 0 none) 400
      (⟨0xffff * 2 ^ 208, 60, 60, false, false, 0⟩ : Params)) ≤ 0xffff * 2 ^ 208 ∧
    CalculateNextWorkRequired (BlockIndex.mk 0 1000 0x1d00ffff 0 none) 400
      (⟨0xffff * 2 ^ 208, 60, 60, false, false, 0⟩ : Params) =
      getCompact (0xffff * 2 ^ 208) :=
  ⟨(calculateNextWork_clamped (BlockIndex.mk 0 1000 0x1d00ffff 0 none) 400
      ⟨0xffff * 2 ^ 208, 60, 60, false, false, 0⟩ rfl (by norm_num)).1,
   (calculateNextWork_clamped (BlockIndex.mk 0 1000 0x1d00ffff 0 none) 400
      ⟨0xffff * 2 ^ 208, 60, 60, false, false, 0⟩ rfl (by norm_num)).2
     (by decide) (by decide) (by norm_num) (by norm_num) (by decide)⟩

/-- C2 (amended): away from an adjustment boundary, with no
minimum-difficulty exception (flag off and digishield gate not firing), and
with the candidate's timestamps passing validation, `GetNextWorkRequired`
returns exactly the previous block's `nBits`.  (The timestamp-validation
hypothesis is required: a failing timestamp check makes the orchestrator
return the `powLimit` compact instead.) -/
theorem getNextWork_nonboundary (digishield : BlockIndex → Option BlockHeader → Params → Bool)
    (adjustedTime : ℤ) (last : BlockIndex) (pblock : Option BlockHeader) (p : Params)
    (hvb : ValidateBlockTime adjustedTime last pblock = true)
    (hdg : digishield last pblock p = false)
    (hmd : p.fPowAllowMinDifficultyBlocks = false)
    (hnb : (last.nHeight + 1).tmod (eraInterval p (last.nHeight + 1)) ≠ 0) :
    GetNextWorkRequired digishield adjustedTime (some last) pblock p = last.nBits := by
  unfold eraInterval at hnb
  simp only [GetNextWorkRequired, hvb, hdg, hmd]
  rw [if_neg (by simp), if_neg (by simp), if_pos hnb, if_neg (by simp)]

set_option maxRecDepth 10000 in
/-- Counterexample for C2 as stated: all of the claim's conditions hold
(non-boundary height, no minimum-difficulty exception), but the candidate's
timestamp fails validation (it is below the previous block's
median-time-past), so `GetNextWorkRequired` returns the `powLimit` compact
`0x1d00ffff` instead of the previous block's `nBits = 0x1c00ffff`. -/
theorem getNextWork_nonboundary_cex :
    ((6:ℤ).tmod (eraInterval (⟨0xffff * 2 ^ 208, 60, 60, false, false, 0⟩ : Params) 6) ≠ 0) ∧
    (⟨0xffff * 2 ^ 208, 60, 60, false, false, 0⟩ : Params).fPowAllowMinDifficultyBlocks
      = false ∧
    GetNextWorkRequired (fun _ _ _ => false) 1000000
      (some (BlockIndex.mk 5 1000 0x1c00ffff 2000 none)) (some ⟨1500⟩)
      (⟨0xffff * 2 ^ 208, 60, 60, false, false, 0⟩ : Params) ≠
      (BlockIndex.mk 5 1000 0x1c00ffff 2000 none).nBits := by
  decide

/-- Witness for C2's amended theorem at a concrete input. -/
theorem getNextWork_nonboundary_witness :
    GetNextWorkRequired (fun _ _ _ => false) 1000000
      (some (BlockIndex.mk 5 1000 0x1c00ffff 500 none)) (some ⟨1500⟩)
      (⟨0xffff * 2 ^ 208, 60, 60, false, false, 0⟩ : Params) =
      (BlockIndex.mk 5 1000 0x1c00ffff 500 none).nBits :=
  getNextWork_nonboundary (fun _ _ _ => false) 1000000
    (BlockIndex.mk 5 1000 0x1c00ffff 500 none) (some ⟨1500⟩)
    ⟨0xffff * 2 ^ 208, 60, 60, false, false, 0⟩
    (by decide) rfl rfl (by decide)

lemma clamp_le_clamp {a b L : ℕ} (h : a ≤ b) :
    (if a > L then L else a) ≤ (if b > L then L else b) := by
  by_cases h1 : a > L
  · rw [if_pos h1]
    by_cases h2 : b > L
    · rw [if_pos h2]
    · rw [if_neg h2]
      omega
  · rw [if_neg h1]
    by_cases h2 : b > L
    · rw [if_pos h2]
      omega
    · rw [if_neg h2]
      exact h

lemma clamp_lt {a L B : ℕ} (hL : L < B) (ha : a < B) : (if a > L then L else a) < B := by
  by_cases h1 : a > L
  · rw [if_pos h1]
    exact hL
  · rw [if_neg h1]
    exact ha

/-- The calculator's clamped-and-encoded value, for any modulated timespan
between the two limits, decodes between the guard's bounds. -/
lemma guard_bounds_calc (p : Params) (height : ℤ) (x : ℕ) (md : ℤ) (X : ℕ)
    (hT : 0 < p.nPowTargetTimespan)
    (h32 : p.nPowTargetTimespan * 4 < 2 ^ 32)
    (hL : p.powLimit < 2 ^ 256)
    (hnw : setCompactValue x * (p.nPowTargetTimespan * 4).toNat < 2 ^ 256)
    (hmdlo : (GetDifficultyLimits height (GetTransitionFactor height) p).1 ≤ md)
    (hmdhi : md ≤ (GetDifficultyLimits height (GetTransitionFactor height) p).2)
    (hX : X = if divTS (mulTS (setCompactValue x) md) p.nPowTargetTimespan > p.powLimit
        then p.powLimit
        else divTS (mulTS (setCompactValue x) md) p.nPowTargetTimespan) :
    setCompactValue (getCompact X) ≤ guardMax p height x ∧
    guardMin p height x ≤ setCompactValue (getCompact X) := by
  have hf0 := transitionFactor_nonneg height
  have hf1 := transitionFactor_le_one height
  obtain ⟨hlo, hhi⟩ := limits_fst_bounds height (GetTransitionFactor height) p hf0 hf1 hT
  have hsnd := limits_snd height (GetTransitionFactor height) p
  set o := setCompactValue x with ho
  have holt : o < 2 ^ 256 := setCompactValue_lt x
  obtain ⟨tn, htn⟩ : ∃ tn : ℕ, p.nPowTargetTimespan = (tn : ℤ) :=
    ⟨p.nPowTargetTimespan.toNat, (Int.toNat_of_nonneg hT.le).symm⟩
  have htn0 : 0 < tn := by omega
  have ht4 : (p.nPowTargetTimespan * 4).toNat = 4 * tn := by rw [htn]; omega
  have hnw4 : o * (4 * tn) < 2 ^ 256 := by rw [← ht4]; exact hnw
  have hd4 : p.nPowTargetTimespan.tdiv 4 ≤ p.nPowTargetTimespan := by
    rw [Int.tdiv_eq_ediv hT.le (by norm_num)]
    exact Int.ediv_le_self _ hT.le
  have hlim10 : 0 ≤ (GetDifficultyLimits height (GetTransitionFactor height) p).1 :=
    le_trans (Int.tdiv_nonneg hT.le (by norm_num)) hlo
  have hmd0 : 0 ≤ md := le_trans hlim10 hmdlo
  have hmd32 : md < 2 ^ 32 := by
    rw [hsnd] at hmdhi
    omega
  have hmdnat : md.toNat ≤ 4 * tn := by
    rw [hsnd, htn] at hmdhi
    omega
  have hl1nat : (GetDifficultyLimits height (GetTransitionFactor height) p).1.toNat ≤
      md.toNat := by omega
  have hm_md : mulTS o md = o * md.toNat := by
    apply mulTS_eq _ _ hmd0 hmd32
    calc o * md.toNat ≤ o * (4 * tn) := Nat.mul_le_mul_left _ hmdnat
      _ < 2 ^ 256 := hnw4
  have hm_lim2 : mulTS o (GetDifficultyLimits height (GetTransitionFactor height) p).2 =
      o * (4 * tn) := by
    rw [hsnd, mulTS_eq _ _ (by omega) h32 hnw, ht4]
  have hm_lim1 : mulTS o (GetDifficultyLimits height (GetTransitionFactor height) p).1 =
      o * (GetDifficultyLimits height (GetTransitionFactor height) p).1.toNat := by
    apply mulTS_eq _ _ hlim10 (by omega)
    calc o * (GetDifficultyLimits height (GetTransitionFactor height) p).1.toNat ≤
        o * (4 * tn) := Nat.mul_le_mul_left _ (by omega)
      _ < 2 ^ 256 := hnw4
  have hT64 : p.nPowTargetTimespan < 2 ^ 64 := by omega
  have hdstep : ∀ a : ℕ, divTS a p.nPowTargetTimespan = a / tn := by
    intro a
    rw [divTS_eq _ _ hT.le hT64, htn, Int.toNat_natCast]
  have hXd : X = if o * md.toNat / tn > p.powLimit then p.powLimit
      else o * md.toNat / tn := by
    rw [hX, hm_md, hdstep]
  have hdd_le : o * md.toNat / tn ≤ o * (4 * tn) / tn :=
    Nat.div_le_div_right (Nat.mul_le_mul_left _ hmdnat)
  have hdmin_le : o * (GetDifficultyLimits height (GetTransitionFactor height) p).1.toNat / tn ≤
      o * md.toNat / tn :=
    Nat.div_le_div_right (Nat.mul_le_mul_left _ hl1nat)
  have hdd_lt : o * md.toNat / tn < 2 ^ 256 :=
    lt_of_le_of_lt (le_trans (Nat.div_le_self _ _)
      (Nat.mul_le_mul_left _ hmdnat)) hnw4
  have hdmax_lt : o * (4 * tn) / tn < 2 ^ 256 :=
    lt_of_le_of_lt (Nat.div_le_self _ _) hnw4
  have hdmin_lt : o * (GetDifficultyLimits height (GetTransitionFactor height) p).1.toNat / tn
      < 2 ^ 256 := lt_of_le_of_lt hdmin_le hdd_lt
  constructor
  · simp only [guardMax]
    rw [hm_lim2, hdstep, hXd]
    exact roundtrip_mono (clamp_lt hL hdd_lt) (clamp_lt hL hdmax_lt) (clamp_le_clamp hdd_le)
  · simp only [guardMin]
    rw [hm_lim1, hdstep, hXd]
    exact roundtrip_mono (clamp_lt hL hdmin_lt) (clamp_lt hL hdd_lt) (clamp_le_clamp hdmin_le)

/-- C1 (amended): whenever the spacing divides the timespan (so the
orchestrator's era interval is a multiple of `DifficultyAdjustmentInterval`),
`4 * timespan` fits in 32 bits, and the previous target decodes to at most
`powLimit` without overflowing `old * 4*timespan` past 256 bits, the guard
`PermittedDifficultyTransition` accepts `CalculateNextWorkRequired`'s output
on every orchestrator retarget boundary.  (For parameter sets where the
spacing does not divide the timespan, a sub-69360 era boundary need not be a
guard boundary and the guard then demands an unchanged value — see the
counterexample.) -/
theorem calculator_output_permitted (p : Params) (last : BlockIndex) (firstTime : ℤ)
    (hS : 0 < p.nPowTargetSpacing)
    (hT : 0 < p.nPowTargetTimespan)
    (hdvd : p.nPowTargetSpacing ∣ p.nPowTargetTimespan)
    (h32 : p.nPowTargetTimespan * 4 < 2 ^ 32)
    (hL : p.powLimit < 2 ^ 256)
    (hold : setCompactValue last.nBits ≤ p.powLimit)
    (hnw : setCompactValue last.nBits * (p.nPowTargetTimespan * 4).toNat < 2 ^ 256)
    (hb : (last.nHeight + 1).tmod (eraInterval p (last.nHeight + 1)) = 0) :
    PermittedDifficultyTransition p (last.nHeight + 1) last.nBits
      (CalculateNextWorkRequired last firstTime p) = true := by
  obtain ⟨q, hq⟩ := hdvd
  have hq0 : 0 < q := by
    rcases le_or_lt q 0 with hle | hlt
    · exfalso
      have : p.nPowTargetSpacing * q ≤ 0 := mul_nonpos_of_nonneg_of_nonpos hS.le hle
      omega
    · exact hlt
  have hDAIq : DifficultyAdjustmentInterval p = q := by
    unfold DifficultyAdjustmentInterval
    rw [hq, Int.mul_tdiv_cancel_left _ (by omega)]
  have hDAI : (last.nHeight + 1).tmod (DifficultyAdjustmentInterval p) = 0 := by
    unfold eraInterval at hb
    by_cases hera : last.nHeight + 1 ≥ 69360
    · rw [if_pos hera, hq, Int.mul_tdiv_cancel_left _ (by omega)] at hb
      rw [hDAIq]
      exact hb
    · rw [if_neg hera] at hb
      have h12 : (p.nPowTargetTimespan * 12).tdiv p.nPowTargetSpacing = 12 * q := by
        rw [hq, show p.nPowTargetSpacing * q * 12 = p.nPowTargetSpacing * (12 * q) by ring,
          Int.mul_tdiv_cancel_left _ (by omega)]
      rw [h12] at hb
      have hdvd2 : (12 * q) ∣ (last.nHeight + 1) := Int.dvd_of_tmod_eq_zero hb
      have hqd : q ∣ last.nHeight + 1 :=
        dvd_trans (⟨12, by ring⟩ : q ∣ 12 * q) hdvd2
      rw [hDAIq]
      exact Int.tmod_eq_zero_of_dvd hqd
  by_cases hmd : p.fPowAllowMinDifficultyBlocks
  · simp only [PermittedDifficultyTransition, hmd]
    simp
  · have hmd2 : p.fPowAllowMinDifficultyBlocks = false := by
      revert hmd
      cases p.fPowAllowMinDifficultyBlocks <;> simp
    by_cases hnr : p.fPowNoRetargeting
    · have hcalc : CalculateNextWorkRequired last firstTime p = last.nBits := by
        simp only [CalculateNextWorkRequired, hnr]
        simp
      rw [hcalc]
      obtain ⟨hmax, hmin⟩ :=
        guard_bounds_self p (last.nHeight + 1) last.nBits hT h32 hL hold hnw
      exact permitted_of_bounds _ _ _ _ hmd2 hDAI hmax hmin
    · have hnr2 : p.fPowNoRetargeting = false := by
        revert hnr
        cases p.fPowNoRetargeting <;> simp
      set o := setCompactValue last.nBits with ho
      set lim := GetDifficultyLimits (last.nHeight + 1)
        (GetTransitionFactor (last.nHeight + 1)) p with hlim
      set act := last.nTime - firstTime with hact
      set md := (if act < lim.1 then lim.1 else if act > lim.2 then lim.2 else act) with hmdd
      set X := (if divTS (mulTS o md) p.nPowTargetTimespan > p.powLimit then p.powLimit
          else divTS (mulTS o md) p.nPowTargetTimespan) with hX
      have hcalc : CalculateNextWorkRequired last firstTime p = getCompact X := by
        simp only [CalculateNextWorkRequired, hnr2]
        rw [if_neg (by simp)]
      have hf0 := transitionFactor_nonneg (last.nHeight + 1)
      have hf1 := transitionFactor_le_one (last.nHeight + 1)
      obtain ⟨hlo, hhi⟩ := limits_fst_bounds (last.nHeight + 1)
        (GetTransitionFactor (last.nHeight + 1)) p hf0 hf1 hT
      have hsnd := limits_snd (last.nHeight + 1) (GetTransitionFactor (last.nHeight + 1)) p
      rw [← hlim] at hlo hhi hsnd
      have hd4 : p.nPowTargetTimespan.tdiv 4 ≤ p.nPowTargetTimespan := by
        rw [Int.tdiv_eq_ediv hT.le (by norm_num)]
        exact Int.ediv_le_self _ hT.le
      have h12lim : lim.1 ≤ lim.2 := by
        rw [hsnd]
        omega
      have hmdlo : lim.1 ≤ md := by
        rw [hmdd]
        by_cases c1 : act < lim.1
        · rw [if_pos c1]
        · rw [if_neg c1]
          by_cases c2 : act > lim.2
          · rw [if_pos c2]
            exact h12lim
          · rw [if_neg c2]
            omega
      have hmdhi : md ≤ lim.2 := by
        rw [hmdd]
        by_cases c1 : act < lim.1
        · rw [if_pos c1]
          exact h12lim
        · rw [if_neg c1]
          by_cases c2 : act > lim.2
          · rw [if_pos c2]
          · rw [if_neg c2]
            omega
      obtain ⟨hmax, hmin⟩ := guard_bounds_calc p (last.nHeight + 1) last.nBits md X
        hT h32 hL hnw hmdlo hmdhi hX
      rw [hcalc]
      exact permitted_of_bounds _ _ _ _ hmd2 hDAI hmax hmin

set_option maxRecDepth 10000 in
/-- Counterexample for C1 as stated: with spacing `3` and timespan `10`, the
orchestrator's sub-69360 interval is `(10*12)/3 = 40`, so height `40` is a
retarget boundary, but `40` is not a multiple of
`DifficultyAdjustmentInterval() = 10/3 = 3`; the guard therefore takes its
non-boundary branch and rejects the calculator's (changed) output. -/
theorem calculator_output_permitted_cex :
    ((BlockIndex.mk 39 1000 0x1b00ffff 0 none).nHeight + 1).tmod
      (eraInterval (⟨0x7fffff * 2 ^ 232, 3, 10, false, false, 0⟩ : Params)
        ((BlockIndex.mk 39 1000 0x1b00ffff 0 none).nHeight + 1)) = 0 ∧
    PermittedDifficultyTransition (⟨0x7fffff * 2 ^ 232, 3, 10, false, false, 0⟩ : Params)
      ((BlockIndex.mk 39 1000 0x1b00ffff 0 none).nHeight + 1)
      (BlockIndex.mk 39 1000 0x1b00ffff 0 none).nBits
      (CalculateNextWorkRequired (BlockIndex.mk 39 1000 0x1b00ffff 0 none) 900
        (⟨0x7fffff * 2 ^ 232, 3, 10, false, false, 0⟩ : Params)) = false := by
  decide

/-- Witness for C1's amended theorem at a concrete input (height `120` is a
sub-69360 era boundary for spacing 60 / timespan 60). -/
theorem calculator_output_permitted_witness :
    PermittedDifficultyTransition (⟨0xffff * 2 ^ 208, 60, 60, false, false, 0⟩ : Params)
      ((BlockIndex.mk 119 1000 0x1d00ffff 0 none).nHeight + 1)
      (BlockIndex.mk 119 1000 0x1d00ffff 0 none).nBits
      (CalculateNextWorkRequired (BlockIndex.mk 119 1000 0x1d00ffff 0 none) 0
        (⟨0xffff * 2 ^ 208, 60, 60, false, false, 0⟩ : Params)) = true :=
  calculator_output_permitted ⟨0xffff * 2 ^ 208, 60, 60, false, false, 0⟩
    (BlockIndex.mk 119 1000 0x1d00ffff 0 none) 0
    (by norm_num) (by norm_num) ⟨1, by norm_num⟩ (by norm_num) (by norm_num)
    (by decide) (by decide) (by decide)

lemma rn53_mono_le {k k' : ℕ} (hk : k ≤ k') : k' < 2000 → rn53 k ≤ rn53 k' := by
  induction k', hk using Nat.le_induction with
  | base => exact fun _ => le_refl _
  | succ m hm ih =>
    intro h2
    exact le_trans (ih (by omega)) (rn53_mono m h2)

lemma transitionFactor_mono (h h' : ℤ) (hle : h ≤ h') :
    GetTransitionFactor h ≤ GetTransitionFactor h' := by
  have hA : newRulesActivationHeight = 175000 := rfl
  have hW : transitionWindow = 2000 := rfl
  by_cases c1 : h < newRulesActivationHeight
  · have e1 : GetTransitionFactor h = 0 := by
      unfold GetTransitionFactor
      rw [if_pos c1]
    rw [e1]
    exact transitionFactor_nonneg h'
  · by_cases c2 : h ≥ newRulesActivationHeight + transitionWindow
    · have e1 : GetTransitionFactor h = 1 := by
        unfold GetTransitionFactor
        rw [if_neg c1, if_pos c2]
      have e2 : GetTransitionFactor h' = 1 := by
        unfold GetTransitionFactor
        rw [if_neg (by omega), if_pos (by omega)]
      rw [e1, e2]
    · have e1 : GetTransitionFactor h = rn53 (h - newRulesActivationHeight).toNat := by
        unfold GetTransitionFactor
        rw [if_neg c1, if_neg c2]
      rw [e1]
      have hk2 : (h - newRulesActivationHeight).toNat < 2000 := by omega
      by_cases c3 : h' ≥ newRulesActivationHeight + transitionWindow
      · have e2 : GetTransitionFactor h' = 1 := by
          unfold GetTransitionFactor
          rw [if_neg (by omega), if_pos c3]
        rw [e2]
        exact rn53_le_one _ hk2
      · have e2 : GetTransitionFactor h' = rn53 (h' - newRulesActivationHeight).toNat := by
          unfold GetTransitionFactor
          rw [if_neg (by omega), if_neg c3]
        rw [e2]
        apply rn53_mono_le (by omega)
        omega

/-- C6 (amended): `GetTransitionFactor` returns exactly `0` below the
activation height `175000` and exactly `1` at or above `177000`; it is
monotone non-decreasing and always lies in `[0, 1]`.  Inside the window,
however, it returns the correctly-rounded binary64 value of
`(height - 175000) / 2000` — within `2⁻⁵³` of the exact rational, but not
equal to it (the source divides in `double`; see the counterexample at
height `175001`). -/
theorem transition_factor_props :
    (∀ h : ℤ, h < 175000 → GetTransitionFactor h = 0) ∧
    (∀ h : ℤ, 175000 + 2000 ≤ h → GetTransitionFactor h = 1) ∧
    (∀ h h' : ℤ, h ≤ h' → GetTransitionFactor h ≤ GetTransitionFactor h') ∧
    (∀ h : ℤ, 0 ≤ GetTransitionFactor h ∧ GetTransitionFactor h ≤ 1) ∧
    (∀ h : ℤ, 175000 ≤ h → h < 175000 + 2000 →
      |GetTransitionFactor h - ((h : ℚ) - 175000) / 2000| ≤ 1 / 2 ^ 53) := by
  refine ⟨?_, ?_, transitionFactor_mono, fun h => ⟨transitionFactor_nonneg h,
    transitionFactor_le_one h⟩, ?_⟩
  · intro h hh
    unfold GetTransitionFactor
    rw [if_pos (by unfold newRulesActivationHeight; exact hh)]
  · intro h hh
    unfold GetTransitionFactor
    rw [if_neg (by unfold newRulesActivationHeight; omega),
      if_pos (by unfold newRulesActivationHeight transitionWindow; omega)]
  · intro h h1 h2
    have hA : newRulesActivationHeight = 175000 := rfl
    have hW : transitionWindow = 2000 := rfl
    have e1 : GetTransitionFactor h = rn53 (h - newRulesActivationHeight).toNat := by
      unfold GetTransitionFactor
      rw [if_neg (by omega), if_neg (by omega)]
    set k := (h - newRulesActivationHeight).toNat with hk
    have hkv : (k : ℤ) = h - 175000 := by omega
    have hkq : ((h : ℚ) - 175000) / 2000 = (k : ℚ) / 2000 := by
      have hc : ((k : ℤ) : ℚ) = (h : ℚ) - 175000 := by
        rw [hkv]
        push_cast
        ring
      rw [Int.cast_natCast] at hc
      rw [hc]
    rw [e1, hkq]
    have hk2 : k < 2000 := by omega
    rcases Nat.eq_zero_or_pos k with h0 | h0
    · rw [h0]
      have hz : rn53 0 = 0 := by
        unfold rn53
        rw [if_pos rfl]
      rw [hz]
      norm_num
    · exact rn53_err k h0 hk2

/-- Counterexample for C6 as stated: at height `175001` the factor is the
binary64 rounding of `1/2000`, not the exact rational `1/2000`
(`4611686018427388 * 2000 ≠ 2^63`). -/
theorem transition_factor_props_cex :
    GetTransitionFactor 175001 ≠ ((175001 : ℚ) - 175000) / 2000 := by
  have e1 : GetTransitionFactor 175001 = rn53 1 := by
    unfold GetTransitionFactor newRulesActivationHeight transitionWindow
    rw [if_neg (by norm_num), if_neg (by norm_num)]
    norm_num
  have hs : rnS 1 = 11 := by decide
  have hn : rnNum 1 = 4611686018427388 := by decide
  have e2 : rn53 1 = (4611686018427388 : ℚ) / 2 ^ 63 := by
    unfold rn53
    rw [if_neg (by norm_num), hs, hn]
    norm_num
  have e3 : ((175001 : ℚ) - 175000) / 2000 = 1 / 2000 := by norm_num
  rw [e1, e2, e3]
  intro hcontra
  rw [div_eq_div_iff (by positivity) (by norm_num)] at hcontra
  norm_num at hcontra

/-- Witness for C6's amended theorem at concrete heights. -/
theorem transition_factor_props_witness :
    GetTransitionFactor 174999 = 0 ∧ GetTransitionFactor 177000 = 1 ∧
    GetTransitionFactor 100 ≤ GetTransitionFactor 176000 ∧
    |GetTransitionFactor 175001 - ((175001 : ℚ) - 175000) / 2000| ≤ 1 / 2 ^ 53 :=
  ⟨transition_factor_props.1 174999 (by norm_num),
   transition_factor_props.2.1 177000 (by norm_num),
   transition_factor_props.2.2.1 100 176000 (by norm_num),
   transition_factor_props.2.2.2.2 175001 (by norm_num) (by norm_num)⟩

/-- Number of predecessor links reachable from a block index. -/
def chainDepth : BlockIndex → ℕ
  | .mk _ _ _ _ none => 0
  | .mk _ _ _ _ (some prev) => chainDepth prev + 1

/-- A well-formed chain: every height is non-negative and each predecessor
sits exactly one height below its successor. -/
def wellFormed : BlockIndex → Bool
  | .mk h _ _ _ none => decide (0 ≤ h)
  | .mk h _ _ _ (some prev) =>
    decide (0 ≤ h) && decide (prev.nHeight = h - 1) && wellFormed prev

lemma wellFormed_height_nonneg (b : BlockIndex) (hwf : wellFormed b = true) :
    0 ≤ b.nHeight := by
  cases b with
  | mk h t bits mtp pv =>
    cases pv with
    | none => simpa [wellFormed, BlockIndex.nHeight] using hwf
    | some prev =>
      simp only [wellFormed, Bool.and_eq_true, decide_eq_true_eq] at hwf
      simpa [BlockIndex.nHeight] using hwf.1.1

lemma minDiffWalk_stop_aux (p : Params) (L : ℕ) :
    ∀ n : ℕ, ∀ b : BlockIndex, chainDepth b ≤ n →
      (minDiffWalk p L b).pprev = none ∨
      (minDiffWalk p L b).nHeight.tmod (DifficultyAdjustmentInterval p) = 0 ∨
      (minDiffWalk p L b).nBits ≠ L := by
  intro n
  induction n with
  | zero =>
    intro b hd
    cases b with
    | mk h t bits mtp pv =>
      cases pv with
      | none =>
        left
        simp [minDiffWalk, BlockIndex.pprev]
      | some prev =>
        exfalso
        simp [chainDepth] at hd
  | succ n IH =>
    intro b hd
    cases b with
    | mk h t bits mtp pv =>
      cases pv with
      | none =>
        left
        simp [minDiffWalk, BlockIndex.pprev]
      | some prev =>
        by_cases hc : h.tmod (DifficultyAdjustmentInterval p) ≠ 0 ∧ bits = L
        · have he : minDiffWalk p L (.mk h t bits mtp (some prev)) =
              minDiffWalk p L prev := by
            simp only [minDiffWalk]
            rw [if_pos hc]
          rw [he]
          apply IH
          simp only [chainDepth] at hd
          omega
        · have he : minDiffWalk p L (.mk h t bits mtp (some prev)) =
              .mk h t bits mtp (some prev) := by
            simp only [minDiffWalk]
            rw [if_neg hc]
          rw [he]
          rcases not_and_or.mp hc with h1 | h1
          · right
            left
            simp only [BlockIndex.nHeight]
            exact not_not.mp h1
          · right
            right
            simp only [BlockIndex.nBits]
            exact h1

lemma minDiffWalkSteps_le_aux (p : Params) (L : ℕ)
    (hD : 0 < DifficultyAdjustmentInterval p) :
    ∀ n : ℕ, ∀ b : BlockIndex, chainDepth b ≤ n → wellFormed b = true →
      (minDiffWalkSteps p L b : ℤ) ≤ b.nHeight.tmod (DifficultyAdjustmentInterval p) := by
  intro n
  induction n with
  | zero =>
    intro b hd hwf
    cases b with
    | mk h t bits mtp pv =>
      cases pv with
      | none =>
        have h0 : 0 ≤ h := by simpa [wellFormed] using hwf
        simp only [minDiffWalkSteps, BlockIndex.nHeight]
        rw [Int.tmod_eq_emod h0 hD.le]
        push_cast
        exact Int.emod_nonneg h (by omega)
      | some prev =>
        exfalso
        simp [chainDepth] at hd
  | succ n IH =>
    intro b hd hwf
    cases b with
    | mk h t bits mtp pv =>
      cases pv with
      | none =>
        have h0 : 0 ≤ h := by simpa [wellFormed] using hwf
        simp only [minDiffWalkSteps, BlockIndex.nHeight]
        rw [Int.tmod_eq_emod h0 hD.le]
        push_cast
        exact Int.emod_nonneg h (by omega)
      | some prev =>
        have hwf2 := hwf
        simp only [wellFormed, Bool.and_eq_true, decide_eq_true_eq] at hwf2
        obtain ⟨⟨h0, hph⟩, hpwf⟩ := hwf2
        by_cases hc : h.tmod (DifficultyAdjustmentInterval p) ≠ 0 ∧ bits = L
        · have he : minDiffWalkSteps p L (.mk h t bits mtp (some prev)) =
              minDiffWalkSteps p L prev + 1 := by
            simp only [minDiffWalkSteps]
            rw [if_pos hc]
          have hprev := IH prev (by simp only [chainDepth] at hd; omega) hpwf
          rw [hph] at hprev
          have hm := hc.1
          rw [Int.tmod_eq_emod h0 hD.le] at hm
          have h1' : 1 ≤ h := by
            rcases eq_or_lt_of_le h0 with he0 | he0
            · exfalso
              apply hm
              rw [← he0]
              simp
            · omega
          rw [Int.tmod_eq_emod (by omega) hD.le] at hprev
          simp only [he, BlockIndex.nHeight]
          rw [Int.tmod_eq_emod h0 hD.le]
          push_cast
          have hr0 : 0 ≤ h % DifficultyAdjustmentInterval p := Int.emod_nonneg h (by omega)
          have hrD : h % DifficultyAdjustmentInterval p < DifficultyAdjustmentInterval p :=
            Int.emod_lt_of_pos h hD
          have hD2 : 2 ≤ DifficultyAdjustmentInterval p := by
            by_contra hcon
            have hD1 : DifficultyAdjustmentInterval p = 1 := by omega
            rw [hD1, Int.emod_one] at hm
            exact hm rfl
          have h1D : (1 : ℤ) % DifficultyAdjustmentInterval p = 1 :=
            Int.emod_eq_of_lt (by norm_num) (by omega)
          have he1 : (h - 1) % DifficultyAdjustmentInterval p =
              h % DifficultyAdjustmentInterval p - 1 := by
            rw [Int.sub_emod, h1D]
            exact Int.emod_eq_of_lt (by omega) (by omega)
          rw [he1] at hprev
          omega
        · have he : minDiffWalkSteps p L (.mk h t bits mtp (some prev)) = 0 := by
            simp only [minDiffWalkSteps]
            rw [if_neg hc]
          simp only [he, BlockIndex.nHeight]
          rw [Int.tmod_eq_emod h0 hD.le]
          push_cast
          exact Int.emod_nonneg h (by omega)

/-- C9: on a minimum-difficulty chain, at a non-boundary height, with the
candidate's timestamps valid, the digishield gate not firing, and the
candidate not delayed past `6 × spacing`, `GetNextWorkRequired` returns the
`nBits` of the block reached by the backward walk; the walk stops at the
first block that is genesis, at a height divisible by
`DifficultyAdjustmentInterval`, or not carrying the `powLimit` compact bits;
and on a well-formed chain it follows strictly fewer than one adjustment
interval's worth of predecessor links. -/
theorem getNextWork_minDiff_walk
    (digishield : BlockIndex → Option BlockHeader → Params → Bool)
    (adjustedTime : ℤ) (last : BlockIndex) (pblock : Option BlockHeader) (p : Params)
    (hmd : p.fPowAllowMinDifficultyBlocks = true)
    (hvb : ValidateBlockTime adjustedTime last pblock = true)
    (hdg : digishield last pblock p = false)
    (hdelay : ¬ headerTime pblock > last.nTime + p.nPowTargetSpacing * 6)
    (hnb : (last.nHeight + 1).tmod (eraInterval p (last.nHeight + 1)) ≠ 0)
    (hwf : wellFormed last = true)
    (hD : 0 < DifficultyAdjustmentInterval p) :
    GetNextWorkRequired digishield adjustedTime (some last) pblock p =
      (minDiffWalk p (getCompact p.powLimit) last).nBits ∧
    ((minDiffWalk p (getCompact p.powLimit) last).pprev = none ∨
     (minDiffWalk p (getCompact p.powLimit) last).nHeight.tmod
       (DifficultyAdjustmentInterval p) = 0 ∨
     (minDiffWalk p (getCompact p.powLimit) last).nBits ≠ getCompact p.powLimit) ∧
    (minDiffWalkSteps p (getCompact p.powLimit) last : ℤ) <
      DifficultyAdjustmentInterval p := by
  refine ⟨?_, ?_, ?_⟩
  · unfold eraInterval at hnb
    simp only [GetNextWorkRequired, hvb, hdg, hmd]
    rw [if_neg (by simp), if_neg (by simp), if_pos hnb, if_pos trivial, if_neg hdelay]
  · exact minDiffWalk_stop_aux p (getCompact p.powLimit) (chainDepth last) last le_rfl
  · have hsteps := minDiffWalkSteps_le_aux p (getCompact p.powLimit) hD
      (chainDepth last) last le_rfl hwf
    have h0 := wellFormed_height_nonneg last hwf
    rw [Int.tmod_eq_emod h0 hD.le] at hsteps
    have hlt := Int.emod_lt_of_pos last.nHeight hD
    omega

/-- Witness for C9's theorem on a concrete two-block chain. -/
theorem getNextWork_minDiff_walk_witness :
    GetNextWorkRequired (fun _ _ _ => false) 1000
      (some (BlockIndex.mk 5 1000 0x1d00ffff 0
        (some (BlockIndex.mk 4 900 0x1c00ffff 0 none))))
      (some ⟨1100⟩) (⟨0xffff * 2 ^ 208, 60, 600, true, false, 0⟩ : Params) =
      (minDiffWalk (⟨0xffff * 2 ^ 208, 60, 600, true, false, 0⟩ : Params)
        (getCompact ((⟨0xffff * 2 ^ 208, 60, 600, true, false, 0⟩ : Params).powLimit))
        (BlockIndex.mk 5 1000 0x1d00ffff 0
          (some (BlockIndex.mk 4 900 0x1c00ffff 0 none)))).nBits ∧
    ((minDiffWalk (⟨0xffff * 2 ^ 208, 60, 600, true, false, 0⟩ : Params)
        (getCompact ((⟨0xffff * 2 ^ 208, 60, 600, true, false, 0⟩ : Params).powLimit))
        (BlockIndex.mk 5 1000 0x1d00ffff 0
          (some (BlockIndex.mk 4 900 0x1c00ffff 0 none)))).pprev = none ∨
     (minDiffWalk (⟨0xffff * 2 ^ 208, 60, 600, true, false, 0⟩ : Params)
        (getCompact ((⟨0xffff * 2 ^ 208, 60, 600, true, false, 0⟩ : Params).powLimit))
        (BlockIndex.mk 5 1000 0x1d00ffff 0
          (some (BlockIndex.mk 4 900 0x1c00ffff 0 none)))).nHeight.tmod
       (DifficultyAdjustmentInterval
         (⟨0xffff * 2 ^ 208, 60, 600, true, false, 0⟩ : Params)) = 0 ∨
     (minDiffWalk (⟨0xffff * 2 ^ 208, 60, 600, true, false, 0⟩ : Params)
        (getCompact ((⟨0xffff * 2 ^ 208, 60, 600, true, false, 0⟩ : Params).powLimit))
        (BlockIndex.mk 5 1000 0x1d00ffff 0
          (some (BlockIndex.mk 4 900 0x1c00ffff 0 none)))).nBits ≠
       getCompact ((⟨0xffff * 2 ^ 208, 60, 600, true, false, 0⟩ : Params).powLimit)) ∧
    (minDiffWalkSteps (⟨0xffff * 2 ^ 208, 60, 600, true, false, 0⟩ : Params)
        (getCompact ((⟨0xffff * 2 ^ 208, 60, 600, true, false, 0⟩ : Params).powLimit))
        (BlockIndex.mk 5 1000 0x1d00ffff 0
          (some (BlockIndex.mk 4 900 0x1c00ffff 0 none))) : ℤ) <
      DifficultyAdjustmentInterval
        (⟨0xffff * 2 ^ 208, 60, 600, true, false, 0⟩ : Params) :=
  getNextWork_minDiff_walk (fun _ _ _ => false) 1000
    (BlockIndex.mk 5 1000 0x1d00ffff 0
      (some (BlockIndex.mk 4 900 0x1c00ffff 0 none)))
    (some ⟨1100⟩) ⟨0xffff * 2 ^ 208, 60, 600, true, false, 0⟩
    rfl (by decide) rfl (by decide) (by decide) (by decide) (by decide)

end JunkcoinPow
